import Mathlib

/-! # CookMate: ingredient search (`searchByIngredients`)

Shallow embedding of `cookmate-backend/src/controllers/recipeController.js`,
handler `searchByIngredients` (lines 92-128), together with the JavaScript
string and array primitives it calls, and of the client code around it:
`searchRecipes` of `screens/recipe/SearchByIngredientsScreen.js`,
`components/recipe/IngredientInput.js`, the helpers `truncateText`,
`minutesToHoursAndMinutes`, `formatCookingTime`, `sanitizeInput`, `slugify`,
`stripHtmlTags`, `validateRecipeData` and `cleanRecipeData` of
`utils/helpers.js`, and of the handler `likeRecipe` (lines 130-156 of the
controller).

Modelling conventions.

* A JavaScript string is a list of characters (`Str`).  Strings holding
  unpaired surrogates have no counterpart; on all other strings substring
  search by UTF-16 code unit and by code point agree.
* `String.prototype.toLowerCase` is Unicode aware.  The handler is therefore
  embedded over an arbitrary lower-casing function `toLowerCase : Str → Str`;
  the general theorems hold for every such function.  Concrete scenarios use
  `asciiToLowerCase`, which is what `toLowerCase` does on ASCII text.
* `Recipe.find(...).populate(...)` is answered by the document store, which is
  not part of the repository.  The handler is embedded over the store's answer
  `find : List Str → Except String (List Recipe)`: the argument is
  `ingredientList` (the query object is built from nothing else), the result
  is either the populated documents or the message of the exception that
  `await` rethrows (this includes a `SyntaxError` of `new RegExp`).
* `Array.prototype.sort` is a stable sort (ECMAScript 2019 and later, Node 11
  and later).  With a consistent comparator its result is unique; it is
  embedded as a stable insertion sort.
* `new RegExp(ing, 'i')` of line 104 takes its argument as a pattern.  The
  concrete store `storeFind newRegExp` embeds the patterns made of literal
  characters, `.` and escaped syntax characters, and the `SyntaxError` of a
  pattern that starts with a quantifier; the case of the letters `A`-`Z`,
  `a`-`z` is ignored.  Other patterns are outside this fragment.
* The numbers of `helpers.js` are Number values (IEEE 754 doubles).  Those that
  are integers are embedded as `Int`.  Every integer below `2 ^ 53` in absolute
  value is a Number value, and sums, remainders and comparisons of these are
  exact.  A quotient is rounded to a significand of 53 binary digits
  (`floorOfQuotient`), and `Number::toString` writes the shortest decimal form
  that denotes the value (`numberToString`).
-/

namespace CookMate

/-- JavaScript string, as the list of its characters. -/
abbrev Str := List Char

/-! ## JavaScript primitives -/

/-- Code points removed by `String.prototype.trim`: ECMAScript `WhiteSpace`
(TAB, VT, FF, SP, NBSP, ZWNBSP and the category Zs) and `LineTerminator`
(LF, CR, LS, PS). -/
def isTrimChar (c : Char) : Bool :=
  let n := c.toNat
  (0x09 ≤ n && n ≤ 0x0D) || n == 0x20 || n == 0xA0 || n == 0x1680 ||
  (0x2000 ≤ n && n ≤ 0x200A) || n == 0x2028 || n == 0x2029 || n == 0x202F ||
  n == 0x205F || n == 0x3000 || n == 0xFEFF

/-- `s.trim()`: white space removed from both ends. -/
def trim (s : Str) : Str :=
  ((s.dropWhile isTrimChar).reverse.dropWhile isTrimChar).reverse

/-- `s.split(sep)` for a one-character separator.  The result always has at
least one entry: `"".split(",")` is `[""]`. -/
def split (sep : Char) : Str → List Str
  | [] => [[]]
  | c :: cs =>
    if c = sep then [] :: split sep cs
    else
      match split sep cs with
      | [] => [[c]]
      | h :: t => (c :: h) :: t

/-- Whether `needle` is a prefix of `hay`. -/
def startsWith : Str → Str → Bool
  | _, [] => true
  | [], _ :: _ => false
  | h :: hs, n :: ns => h == n && startsWith hs ns

/-- `hay.includes(needle)`: `needle` occurs in `hay` as a contiguous run.  The
empty needle occurs in every string. -/
def includes : Str → Str → Bool
  | [], needle => startsWith [] needle
  | h :: hs, needle => startsWith (h :: hs) needle || includes hs needle

/-- ASCII instance of `Character.toLowerCase`: `A`-`Z` go to `a`-`z`. -/
def asciiLowerChar (c : Char) : Char :=
  if 65 ≤ c.toNat ∧ c.toNat ≤ 90 then Char.ofNat (c.toNat + 32) else c

/-- What `String.prototype.toLowerCase` does on ASCII text. -/
def asciiToLowerCase (s : Str) : Str := s.map asciiLowerChar

/-- Insertion step of the stable sort: `x`, which preceded every element of the
(already sorted) list in the input, is placed before the first element `y` that
the comparator does not order strictly before it (`cmp x y ≤ 0`). -/
def insertBy {α : Type} (cmp : α → α → Int) (x : α) : List α → List α
  | [] => [x]
  | y :: ys => if cmp x y ≤ 0 then x :: y :: ys else y :: insertBy cmp x ys

/-- `arr.sort(cmp)`: elements are arranged so that `cmp a b ≤ 0` whenever `a`
comes before `b`, and elements that compare equal keep their input order. -/
def sort {α : Type} (cmp : α → α → Int) : List α → List α
  | [] => []
  | x :: xs => insertBy cmp x (sort cmp xs)

/-! ## Data model (`models/Recipe.js`) -/

/-- Entry of `ingredients`: `{ name, quantity }`. -/
structure Ingredient where
  name : Str
  quantity : Str
  deriving DecidableEq, Repr

/-- Entry of `steps`: `{ stepNumber, instruction }`. -/
structure Step where
  stepNumber : Nat
  instruction : Str
  deriving DecidableEq, Repr

/-- Populated `author` sub-document (`populate('author', 'username profileImage')`). -/
structure Author where
  id : Str
  username : Str
  profileImage : Str
  deriving DecidableEq, Repr

/-- Recipe document, as `toObject()` returns it. -/
structure Recipe where
  id : Str
  title : Str
  description : Str
  ingredients : List Ingredient
  steps : List Step
  cookingTime : Nat
  difficulty : Str
  category : Str
  image : Str
  author : Author
  likes : List Str
  tags : List Str
  deriving DecidableEq, Repr

/-- Object `{ ...recipe.toObject(), matchCount }` built at lines 116-119. -/
structure RankedRecipe where
  recipe : Recipe
  matchCount : Nat
  deriving DecidableEq, Repr

/-- What the handler sends. -/
inductive Response where
  /-- `res.status(400).json({ message })` -/
  | badRequest (message : String)
  /-- `res.json({ recipes })`, status 200 -/
  | ok (recipes : List RankedRecipe)
  /-- `res.status(500).json({ message: 'Server error', error })` -/
  | serverError (error : String)
  deriving DecidableEq, Repr

/-- HTTP status of a response. -/
def Response.status : Response → Nat
  | .badRequest _ => 400
  | .ok _ => 200
  | .serverError _ => 500

/-! ## `searchByIngredients` -/

/-- Line 100: `ingredients.split(',').map(ing => ing.trim().toLowerCase())`. -/
def ingredientList (toLowerCase : Str → Str) (ingredients : Str) : List Str :=
  (split ',' ingredients).map (fun ing => toLowerCase (trim ing))

/-- Lines 110-114: the number of ingredients of the recipe whose lower-cased
name includes some entry of `ingredientList`. -/
def matchCount (toLowerCase : Str → Str) (ingredientList : List Str) (recipe : Recipe) : Nat :=
  (recipe.ingredients.filter (fun ingredient =>
    ingredientList.any (fun userIng => includes (toLowerCase ingredient.name) userIng))).length

/-- Lines 109-120: `recipes.map(recipe => ({ ...recipe.toObject(), matchCount }))`. -/
def recipesWithMatchCount (toLowerCase : Str → Str) (ingredientList : List Str)
    (recipes : List Recipe) : List RankedRecipe :=
  recipes.map (fun recipe => { recipe := recipe, matchCount := matchCount toLowerCase ingredientList recipe })

/-- Comparator of line 122: `(a, b) => b.matchCount - a.matchCount`. -/
def compareMatchCount (a b : RankedRecipe) : Int :=
  (b.matchCount : Int) - (a.matchCount : Int)

/-- Lines 109-122: attach the match counts, then sort. -/
def rankRecipes (toLowerCase : Str → Str) (ingredientList : List Str)
    (recipes : List Recipe) : List RankedRecipe :=
  sort compareMatchCount (recipesWithMatchCount toLowerCase ingredientList recipes)

/-- Handler `searchByIngredients` (lines 92-128).  `ingredients` is
`req.query.ingredients`: `none` when the parameter is absent. -/
def searchByIngredients (toLowerCase : Str → Str)
    (find : List Str → Except String (List Recipe)) (ingredients : Option Str) : Response :=
  match ingredients with
  | none => .badRequest "Ingredients parameter is required"
  | some [] => .badRequest "Ingredients parameter is required"
  | some (c :: cs) =>
    let terms := ingredientList toLowerCase (c :: cs)
    match find terms with
    | .error e => .serverError e
    | .ok recipes => .ok (rankRecipes toLowerCase terms recipes)

/-- Syntax characters of the pattern grammar of regular expressions:
`^ $ \ . * + ? ( ) [ ] { } |`.  Every other character of a pattern stands for
itself. -/
def isSyntaxChar (c : Char) : Bool :=
  c == '^' || c == '$' || c == '\\' || c == '.' || c == '*' || c == '+' || c == '?' ||
  c == '(' || c == ')' || c == '[' || c == ']' || c == '{' || c == '}' || c == '|'

/-- Line terminators (LF, CR, LS, PS): the characters that `.` does not match. -/
def isLineTerminator (c : Char) : Bool :=
  c.toNat == 0x0A || c.toNat == 0x0D || c.toNat == 0x2028 || c.toNat == 0x2029

/-- Element of a pattern: a character that stands for itself, or `.`. -/
inductive PatternAtom where
  | literal (c : Char)
  | anyChar
  deriving DecidableEq, Repr

/-- Whether the element matches the character under the flag `i`: a character
matches itself, letter case of `A`-`Z` ignored; `.` matches every character but
a line terminator.  (Without the flag `u` the engine steps through a subject by
UTF-16 code unit; for the characters of the Basic Multilingual Plane, which
are one code unit each, that is a step by character.) -/
def PatternAtom.matchesChar : PatternAtom → Char → Bool
  | .literal c, d => asciiLowerChar c == asciiLowerChar d
  | .anyChar, d => !isLineTerminator d

/-- The elements of a pattern, for the patterns made of characters that stand
for themselves, of `.`, and of syntax characters escaped by a backslash.  A
backslash at the end of the pattern is a `SyntaxError`.  A pattern with any
other use of a syntax character (quantifiers, groups, classes, alternatives,
anchors, other escapes) is outside the embedded fragment of the pattern
language; it is reported with a message of its own, which is not a message of
the engine. -/
def parsePattern : Str → Except String (List PatternAtom)
  | [] => .ok []
  | ['\\'] => .error "Invalid regular expression: \\ at end of pattern"
  | '\\' :: d :: rest =>
    if isSyntaxChar d then
      match parsePattern rest with
      | .ok atoms => .ok (.literal d :: atoms)
      | .error e => .error e
    else .error "pattern outside the embedded fragment"
  | c :: rest =>
    if c == '.' then
      match parsePattern rest with
      | .ok atoms => .ok (.anyChar :: atoms)
      | .error e => .error e
    else if isSyntaxChar c then .error "pattern outside the embedded fragment"
    else
      match parsePattern rest with
      | .ok atoms => .ok (.literal c :: atoms)
      | .error e => .error e

/-- Whether the elements match the beginning of the subject. -/
def matchesAt : List PatternAtom → Str → Bool
  | [], _ => true
  | _ :: _, [] => false
  | a :: as, d :: ds => a.matchesChar d && matchesAt as ds

/-- Whether the elements match the subject at some position (`test` of an
expression without anchors).  No elements match everywhere. -/
def matchesSomewhere (atoms : List PatternAtom) : Str → Bool
  | [] => matchesAt atoms []
  | d :: ds => matchesAt atoms (d :: ds) || matchesSomewhere atoms ds

/-- `new RegExp(pattern, 'i')` of line 104, as the test that the expression
performs on a subject, or the message of the `SyntaxError` the constructor
throws.  A pattern that begins with a quantifier (`*`, `+`, `?`) has nothing to
repeat and is a `SyntaxError`; see `parsePattern` for the patterns covered.
Letter case is folded for `A`-`Z`, as on ASCII text.  The wording of a message
is the engine's own and differs between engines; the strings here stand for
it. -/
def newRegExp (pattern : Str) : Except String (Str → Bool) :=
  match pattern with
  | c :: _ =>
    if c == '*' || c == '+' || c == '?' then
      .error "Invalid regular expression: Nothing to repeat"
    else
      match parsePattern pattern with
      | .ok atoms => .ok (matchesSomewhere atoms)
      | .error e => .error e
  | [] => .ok (matchesSomewhere [])

/-- Line 104: `ingredientList.map(ing => new RegExp(ing, 'i'))`, evaluated from
left to right; the first pattern that is not an expression throws. -/
def compileAll (regExp : Str → Except String (Str → Bool)) :
    List Str → Except String (List (Str → Bool))
  | [] => .ok []
  | p :: ps =>
    match regExp p with
    | .error e => .error e
    | .ok test =>
      match compileAll regExp ps with
      | .error e => .error e
      | .ok tests => .ok (test :: tests)

/-- Lines 102-106: the expressions are built from the terms, then the store is
queried with `{ 'ingredients.name': { $in: [RegExp] } }` over the documents
`store`, kept in store order: a document is selected when some ingredient name
is matched by some of the expressions.  `regExp` is the constructor
`new RegExp(_, 'i')`; when it throws, the handler answers 500 without a query. -/
def storeFind (regExp : Str → Except String (Str → Bool)) (store : List Recipe)
    (ingredientList : List Str) : Except String (List Recipe) :=
  match compileAll regExp ingredientList with
  | .error e => .error e
  | .ok tests =>
    .ok (store.filter (fun recipe =>
      recipe.ingredients.any (fun ingredient =>
        tests.any (fun test => test ingredient.name))))

/-! ## Concrete data of the scenarios -/

/-- Recipe with the given identifier and ingredients; the other fields are fixed. -/
def mkRecipe (id : String) (ingredients : List (String × String)) : Recipe :=
  { id := id.toList, title := id.toList, description := "A recipe".toList,
    ingredients := ingredients.map (fun p => { name := p.1.toList, quantity := p.2.toList }),
    steps := [{ stepNumber := 1, instruction := "Mix everything".toList }],
    cookingTime := 10, difficulty := "Medium".toList, category := "Dinner".toList,
    image := [], author := { id := "u1".toList, username := "cook".toList, profileImage := [] },
    likes := [], tags := [] }

/-- Candidate A of scenario 1. -/
def candidateA : Recipe := mkRecipe "A" [("Tomatoes", "2"), ("Basil", "1 bunch")]

/-- Candidate B of scenario 1. -/
def candidateB : Recipe := mkRecipe "B" [("Mozzarella Cheese", "200g"), ("Tomato", "1")]


/-- Candidate C of scenario 4: one ingredient holds a pantry term. -/
def candidateC : Recipe := mkRecipe "C" [("Tomato", "3"), ("Rice", "1 cup")]

/-- Candidate D of scenario 4: one ingredient holds a pantry term. -/
def candidateD : Recipe := mkRecipe "D" [("Cheddar cheese", "100g")]

/-- Store with a recipe E that holds neither `tomato` nor `cheese`, between A and B. -/
def storeAEB : List Recipe :=
  [candidateA, mkRecipe "E" [("Flour", "500g")], candidateB]

/-! ## Specification-side definitions -/

/-- Match contributor, in the words of the specification: the lower-cased
ingredient name contains at least one of the terms as a substring. -/
def IsMatchContributor (toLowerCase : Str → Str) (terms : List Str) (i : Ingredient) : Prop :=
  ∃ t ∈ terms, t <:+: toLowerCase i.name

instance (toLowerCase : Str → Str) (terms : List Str) (i : Ingredient) :
    Decidable (IsMatchContributor toLowerCase terms i) := by
  unfold IsMatchContributor; infer_instance

/-- Number of match contributors among the ingredients of a recipe; every
ingredient is counted at most once. -/
def contributorCount (toLowerCase : Str → Str) (terms : List Str) (recipe : Recipe) : Nat :=
  recipe.ingredients.countP (fun i => decide (IsMatchContributor toLowerCase terms i))

/-- The sorted array of line 122 with every entry labelled by the position that
its candidate has in `recipes` (two candidates are two objects even when all
their fields agree). -/
def rankedWithPosition (toLowerCase : Str → Str) (ingredientList : List Str)
    (recipes : List Recipe) : List (Nat × RankedRecipe) :=
  sort (fun a b => compareMatchCount a.2 b.2)
    (recipesWithMatchCount toLowerCase ingredientList recipes).enum

/-- The recipe with one more ingredient at the end of its ingredient list. -/
def Recipe.addIngredient (recipe : Recipe) (extra : Ingredient) : Recipe :=
  { recipe with ingredients := recipe.ingredients ++ [extra] }

/-- Two characters that are one letter of `A`-`Z`, `a`-`z` in either case, or the
same character: they are equal, or one of them is among `A`-`Z` and the other is
the small letter 32 code points above it. -/
def isCaseVariantChar (c d : Char) : Bool :=
  c == d ||
  (decide (65 ≤ c.toNat ∧ c.toNat ≤ 90) && d.toNat == c.toNat + 32) ||
  (decide (65 ≤ d.toNat ∧ d.toNat ≤ 90) && c.toNat == d.toNat + 32)

/-- Two strings that differ at most in the case of letters `A`-`Z`, `a`-`z`,
character by character. -/
def isCaseVariant : Str → Str → Bool
  | [], [] => true
  | c :: cs, d :: ds => isCaseVariantChar c d && isCaseVariant cs ds
  | _, _ => false

/-- Upper-case form of one character, for the letters `a`-`z` and `ß`: the
capital letter, and `SS` for `ß`; other characters are outside this table and
left as they are. -/
def upperCaseChar (c : Char) : Str :=
  if c == 'ß' then ['S', 'S']
  else if 97 ≤ c.toNat ∧ c.toNat ≤ 122 then [Char.ofNat (c.toNat - 32)]
  else [c]

/-- What `String.prototype.toUpperCase` does on text made of ASCII characters
and `ß`. -/
def toUpperCase : Str → Str
  | [] => []
  | c :: cs => upperCaseChar c ++ toUpperCase cs

/-! ## The handler with its work made explicit -/

/-- Work the handler does after the guard of line 96. -/
inductive Work where
  /-- the statement of lines 102-106 entered: the query is built from this term
  list (the expressions of line 104 first) and `Recipe.find` is called with it -/
  | storeQuery (ingredientList : List Str)
  /-- match counts attached to these recipes and the array sorted (lines 109-122) -/
  | ranking (recipes : List Recipe)
  deriving DecidableEq, Repr

/-- Handler `searchByIngredients` (lines 92-128) together with the work done
before the response is sent, in the order in which it is done. -/
def searchByIngredientsTraced (toLowerCase : Str → Str)
    (find : List Str → Except String (List Recipe)) (ingredients : Option Str) :
    List Work × Response :=
  match ingredients with
  | none => ([], .badRequest "Ingredients parameter is required")
  | some [] => ([], .badRequest "Ingredients parameter is required")
  | some (c :: cs) =>
    let terms := ingredientList toLowerCase (c :: cs)
    match find terms with
    | .error e => ([.storeQuery terms], .serverError e)
    | .ok recipes =>
      ([.storeQuery terms, .ranking recipes], .ok (rankRecipes toLowerCase terms recipes))

/-! ## Client: `SearchByIngredientsScreen.js` -/

/-- `arr.join(sep)` for an array of strings and a one-character separator. -/
def join (sep : Char) : List Str → Str
  | [] => []
  | [s] => s
  | s :: t :: rest => s ++ sep :: join sep (t :: rest)

/-- Value of the `ingredients` query parameter that `searchRecipes` (lines
28-40) puts into the request, `none` when it returns without a request
(`ingredients.length === 0`). -/
def searchRecipes (ingredients : List Str) : Option Str :=
  match ingredients with
  | [] => none
  | t :: ts => some (join ',' (t :: ts))

/-! ## Client: `IngredientInput.js` -/

/-- State seen by the component: the `ingredients` array held by the parent
(`onIngredientsChange` is the parent's `setIngredients`) and the two text
fields. -/
structure IngredientInputState where
  ingredients : List Ingredient
  ingredientName : Str
  quantity : Str
  deriving DecidableEq, Repr

/-- State of a freshly mounted component over an empty ingredient list. -/
def IngredientInputState.initial : IngredientInputState :=
  { ingredients := [], ingredientName := [], quantity := [] }

/-- `addIngredient` (lines 14-28): when both fields are non-blank the trimmed
pair is appended and the fields are cleared; otherwise nothing happens. -/
def IngredientInputState.addIngredient (s : IngredientInputState) : IngredientInputState :=
  if trim s.ingredientName ≠ [] ∧ trim s.quantity ≠ [] then
    { ingredients := s.ingredients ++ [{ name := trim s.ingredientName, quantity := trim s.quantity }],
      ingredientName := [], quantity := [] }
  else s

/-- `removeIngredient(index)` (lines 30-33): `ingredients.filter((_, i) => i !== index)`. -/
def IngredientInputState.removeIngredient (s : IngredientInputState) (index : Nat) :
    IngredientInputState :=
  { s with ingredients := (s.ingredients.enum.filter (fun p => p.1 != index)).map Prod.snd }

/-- What the user can do with the component. -/
inductive IngredientInputAction where
  /-- typing into the ingredient field (`setIngredientName`) -/
  | setIngredientName (text : Str)
  /-- typing into the quantity field (`setQuantity`) -/
  | setQuantity (text : Str)
  /-- pressing the add button or submitting a field -/
  | addIngredient
  /-- closing the chip at `index` -/
  | removeIngredient (index : Nat)
  deriving DecidableEq, Repr

/-- Effect of one action on the state. -/
def IngredientInputState.step (s : IngredientInputState) :
    IngredientInputAction → IngredientInputState
  | .setIngredientName text => { s with ingredientName := text }
  | .setQuantity text => { s with quantity := text }
  | .addIngredient => s.addIngredient
  | .removeIngredient index => s.removeIngredient index

/-- State after a sequence of actions, starting from the empty list. -/
def IngredientInputState.run (actions : List IngredientInputAction) : IngredientInputState :=
  actions.foldl IngredientInputState.step IngredientInputState.initial

/-- An ingredient whose name and quantity are non-empty and already trimmed. -/
def Ingredient.WellFormed (i : Ingredient) : Prop :=
  i.name ≠ [] ∧ i.quantity ≠ [] ∧ trim i.name = i.name ∧ trim i.quantity = i.quantity

/-! ## Client: `utils/helpers.js`

Numbers are embedded as integers, on which the double arithmetic of the source
is exact in the safe range.  `length` and `substring` count UTF-16 code units,
which are the characters of a text of the Basic Multilingual Plane. -/

/-- `s.substring(start, stop)`: both indices are clamped to `0 .. s.length`
and swapped when `start > stop`. -/
def substring (s : Str) (start stop : Int) : Str :=
  let a := min start.toNat s.length
  let b := min stop.toNat s.length
  (s.drop (min a b)).take (max a b - min a b)

/-- `truncateText(text, maxLength = 100)` (lines 40-48).  `text` is `none` when
absent; `maxLength` is `none` when the default applies. -/
def truncateText (text : Option Str) (maxLength : Option Int) : Str :=
  match text with
  | none => []
  | some [] => []
  | some (c :: cs) =>
    if ((c :: cs).length : Int) ≤ maxLength.getD 100 then c :: cs
    else substring (c :: cs) 0 (maxLength.getD 100) ++ "...".toList

/-- Object `{ hours, minutes }`. -/
structure HoursMinutes where
  hours : Int
  minutes : Int
  deriving DecidableEq, Repr

/-- Position of the leading binary digit of `n`, by repeated halving; `fuel`
bounds the number of halvings. -/
def floorLog2Fuel : Nat → Nat → Nat
  | 0, _ => 0
  | fuel + 1, n => if n < 2 then 0 else floorLog2Fuel fuel (n / 2) + 1

/-- Position of the leading binary digit of `n`: the `k` with
`2 ^ k ≤ n < 2 ^ (k + 1)`, and 0 for `n = 0`. -/
def floorLog2 (n : Nat) : Nat := floorLog2Fuel n n

/-- The integer nearest to `a / b`, the even one of the two when `a / b` lies
half way between them (the rounding mode of IEEE 754 arithmetic). -/
def roundHalfEven (a b : Nat) : Nat :=
  if 2 * (a % b) < b then a / b
  else if b < 2 * (a % b) then a / b + 1
  else if (a / b) % 2 = 0 then a / b
  else a / b + 1

/-- The Number value for a natural number `n`: `n` itself below `2 ^ 53`,
otherwise the nearest number with a significand of 53 binary digits, which is a
multiple of `2 ^ e` for `e` the position of the leading binary digit of `n`
less 52.  (Every number that occurs is far below `2 ^ 1024`.) -/
def toDouble (n : Nat) : Nat :=
  if n < 2 ^ 53 then n
  else roundHalfEven n (2 ^ (floorLog2 n - 52)) * 2 ^ (floorLog2 n - 52)

/-- `Math.floor(t / d)` for Number values `t ≥ 0` and `0 < d ≤ 2 ^ 53` that are
integers.  The quotient of the division is the real quotient rounded to a
significand of 53 binary digits: with `k` the position of the leading binary
digit of the quotient, to a multiple of `2 ^ (k - 52)`.  For `k ≤ 52` that is
`roundHalfEven (t * 2 ^ (52 - k)) d` over `2 ^ (52 - k)`, of which
`Math.floor` keeps the integer part; for `k > 52` it is an integer already.  A
quotient below 1 stays below 1. -/
def floorOfQuotient (t d : Nat) : Nat :=
  if t / d = 0 then 0
  else if floorLog2 (t / d) ≤ 52 then
    roundHalfEven (t * 2 ^ (52 - floorLog2 (t / d))) d / 2 ^ (52 - floorLog2 (t / d))
  else
    roundHalfEven t (d * 2 ^ (floorLog2 (t / d) - 52)) * 2 ^ (floorLog2 (t / d) - 52)

/-- `minutesToHoursAndMinutes(totalMinutes)` (lines 448-455), `none` for an
absent argument, `some t` for a Number value that is an integer.
`totalMinutes / 60` is a division of Number values, so `Math.floor` is applied
to the rounded quotient (`floorOfQuotient`); `%` is exact and is the remainder
with the sign of the dividend. -/
def minutesToHoursAndMinutes (totalMinutes : Option Int) : HoursMinutes :=
  match totalMinutes with
  | none => { hours := 0, minutes := 0 }
  | some t =>
    if t = 0 ∨ t ≤ 0 then { hours := 0, minutes := 0 }
    else { hours := (floorOfQuotient t.toNat 60 : Nat), minutes := Int.tmod t 60 }

/-- A JavaScript value, as far as `typeof` and truthiness tell values apart. -/
inductive JSValue where
  | undefined
  | null
  | boolean (b : Bool)
  | number (n : Int)
  | string (s : Str)
  | object
  deriving DecidableEq, Repr

/-- An optional string property as a value: `undefined` when absent. -/
def JSValue.ofOption : Option Str → JSValue
  | none => .undefined
  | some s => .string s

/-- `s.replace(/[<>]/g, '')`: every `<` and every `>` removed. -/
def removeAngleBrackets (s : Str) : Str :=
  s.filter (fun c => !(c == '<' || c == '>'))

/-- `sanitizeInput(input)` (lines 409-416): `''` for a falsy or non-string
input, otherwise the input trimmed, without `<` and `>`, cut to 1000. -/
def sanitizeInput (input : JSValue) : Str :=
  match input with
  | .string (c :: cs) => substring (removeAngleBrackets (trim (c :: cs))) 0 1000
  | _ => []

/-- One step of the search for the shortest decimal form of the Number value
`v`: the two multiples of `p` on either side of `v`, when they denote `v`.
When both do, the one nearer to `v` is taken, and of two equally near ones the
one with the even multiplier. -/
def roundTripCandidate (v p : Nat) : Option Nat :=
  if toDouble (v / p * p) = v then
    if toDouble (v / p * p + p) = v then
      if v - v / p * p < v / p * p + p - v then some (v / p * p)
      else if v / p * p + p - v < v - v / p * p then some (v / p * p + p)
      else if (v / p) % 2 = 0 then some (v / p * p)
      else some (v / p * p + p)
    else some (v / p * p)
  else if toDouble (v / p * p + p) = v then some (v / p * p + p)
  else none

/-- The decimal number with the fewest significant digits that denotes the
Number value `v`: the multiples of `10 ^ j`, `10 ^ (j - 1)`, ... are tried in
turn, `v` itself being the last resort. -/
def shortestRoundTrip (v : Nat) : Nat → Nat
  | 0 => v
  | j + 1 =>
    match roundTripCandidate v (10 ^ (j + 1)) with
    | some n => n
    | none => shortestRoundTrip v j

/-- Exponent form of `Number::toString`: the significant digits of `n` with a
point after the first one, then `e+` and the decimal exponent. -/
def exponentForm (n : Nat) : Str :=
  match ((Nat.toDigits 10 n).reverse.dropWhile (fun c => c == '0')).reverse with
  | [] => []
  | [d] => d :: 'e' :: '+' :: Nat.toDigits 10 ((Nat.toDigits 10 n).length - 1)
  | d :: ds => d :: '.' :: ds ++ 'e' :: '+' :: Nat.toDigits 10 ((Nat.toDigits 10 n).length - 1)

/-- `Number::toString` for a Number value `v ≥ 0` that is an integer.  Below
`2 ^ 53` the digits are the decimal digits of `v`.  From there on they are the
digits of the shortest decimal number that denotes `v`, written out in full
below `10 ^ 21` and in exponent form otherwise. -/
def naturalToString (v : Nat) : Str :=
  if v < 2 ^ 53 then Nat.toDigits 10 v
  else if shortestRoundTrip v ((Nat.toDigits 10 v).length - 1) < 10 ^ 21 then
    Nat.toDigits 10 (shortestRoundTrip v ((Nat.toDigits 10 v).length - 1))
  else exponentForm (shortestRoundTrip v ((Nat.toDigits 10 v).length - 1))

/-- An integer Number value inside a template literal (`Number::toString`), with
`-` in front when it is negative. -/
def numberToString (n : Int) : Str :=
  if n < 0 then '-' :: naturalToString n.natAbs else naturalToString n.toNat

/-- `formatCookingTime(minutes)` (lines 7-22), `none` for an absent argument,
`some m` for a Number value that is an integer.  `minutes / 60` is a division
of Number values (`floorOfQuotient`). -/
def formatCookingTime (minutes : Option Int) : Str :=
  match minutes with
  | none => "N/A".toList
  | some m =>
    if m = 0 ∨ m ≤ 0 then "N/A".toList
    else if m < 60 then numberToString m ++ " min".toList
    else
      let hours : Int := (floorOfQuotient m.toNat 60 : Nat)
      let remainingMinutes := Int.tmod m 60
      if remainingMinutes = 0 then numberToString hours ++ "h".toList
      else numberToString hours ++ "h ".toList ++ numberToString remainingMinutes ++ "min".toList

/-- Character class `\w` (without the unicode flag): `A-Z`, `a-z`, `0-9`, `_`. -/
def isWordChar (c : Char) : Bool :=
  let n := c.toNat
  (65 ≤ n && n ≤ 90) || (97 ≤ n && n ≤ 122) || (48 ≤ n && n ≤ 57) || c == '_'

/-- `s.replace(/[p]+/g, r)` for a character class `p`: every maximal run of
characters of the class is replaced by the single character `r`.  The flag
tells whether the scan is inside a run whose replacement has been written. -/
def replaceRuns (p : Char → Bool) (r : Char) : Bool → Str → Str
  | _, [] => []
  | inRun, c :: cs =>
    if p c then (if inRun then replaceRuns p r true cs else r :: replaceRuns p r true cs)
    else c :: replaceRuns p r false cs

/-- `slugify(str)` (lines 306-315).  The class `\s` is the set of characters
that `trim` removes. -/
def slugify (toLowerCase : Str → Str) (str : Option Str) : Str :=
  match str with
  | none => []
  | some [] => []
  | some (c :: cs) =>
    let lowered := trim (toLowerCase (c :: cs))
    let kept := lowered.filter (fun c => isWordChar c || isTrimChar c || c == '-')
    let dashed := replaceRuns (fun c => isTrimChar c || c == '_' || c == '-') '-' false kept
    ((dashed.dropWhile (fun c => c == '-')).reverse.dropWhile (fun c => c == '-')).reverse

/-- `s.replace(/<[^>]*>/g, '')`, scanning from the left.  Outside a match, a
`<` with a `>` somewhere after it starts a match, which runs to the first `>`;
every other character is kept.  The flag tells whether the scan is inside a
match. -/
def stripTagsFrom : Bool → Str → Str
  | _, [] => []
  | true, c :: cs => if c = '>' then stripTagsFrom false cs else stripTagsFrom true cs
  | false, c :: cs =>
    if c = '<' ∧ '>' ∈ cs then stripTagsFrom true cs else c :: stripTagsFrom false cs

/-- `stripHtmlTags(str)` (lines 298-301), `none` for an absent argument. -/
def stripHtmlTags (str : Option Str) : Str :=
  match str with
  | none => []
  | some s => stripTagsFrom false s

/-- Ingredient of the form data: `name` and `quantity` may be absent. -/
structure FormIngredient where
  name : Option Str
  quantity : Option Str
  deriving DecidableEq, Repr

/-- Step of the form data: `instruction` may be absent. -/
structure FormStep where
  stepNumber : Option Int
  instruction : Option Str
  deriving DecidableEq, Repr

/-- Recipe form data; `none` is an absent property (for `cookingTime` also `NaN`). -/
structure RecipeFormData where
  title : Option Str
  description : Option Str
  cookingTime : Option Int
  category : Option Str
  difficulty : Option Str
  ingredients : Option (List FormIngredient)
  steps : Option (List FormStep)
  deriving DecidableEq, Repr

/-- Truthiness of an optional string: present and not `''`. -/
def truthy : Option Str → Bool
  | some (_ :: _) => true
  | _ => false

/-- Length of the trimmed string, 0 when it is absent (used after the
truthiness test of the same property). -/
def trimmedLength : Option Str → Nat
  | some s => (trim s).length
  | none => 0

/-- Result `{ isValid, errors }` of `validateRecipeData`; `errors` lists the
keys set on the errors object with their messages, in the order they are set. -/
structure Validation where
  isValid : Bool
  errors : List (String × String)
  deriving DecidableEq, Repr

/-- Filter of line 253: `step.instruction && step.instruction.trim()`. -/
def hasInstruction (step : FormStep) : Bool :=
  truthy step.instruction && decide (0 < trimmedLength step.instruction)

/-- `validateRecipeData(data)` (lines 226-261). -/
def validateRecipeData (data : RecipeFormData) : Validation :=
  let errors : List (String × String) :=
    (if !truthy data.title || decide (trimmedLength data.title < 3) then
      [("title", "Title must be at least 3 characters")] else []) ++
    (if !truthy data.description || decide (trimmedLength data.description < 10) then
      [("description", "Description must be at least 10 characters")] else []) ++
    (match data.cookingTime with
      | none => [("cookingTime", "Cooking time must be greater than 0")]
      | some t => if t = 0 ∨ t ≤ 0 then [("cookingTime", "Cooking time must be greater than 0")]
        else []) ++
    (if !truthy data.category then [("category", "Category is required")] else []) ++
    (if !truthy data.difficulty then [("difficulty", "Difficulty is required")] else []) ++
    (match data.ingredients with
      | none => [("ingredients", "At least one ingredient is required")]
      | some l => if l.length = 0 then [("ingredients", "At least one ingredient is required")]
        else []) ++
    (match data.steps with
      | none => [("steps", "At least one cooking step is required")]
      | some l => if (l.filter hasInstruction).length = 0 then
          [("steps", "At least one cooking step is required")] else [])
  { isValid := errors.length == 0, errors := errors }

/-- `validateIngredient(ingredient)` (lines 494-501) for an object: the
truthiness of the value it returns. -/
def validateIngredient (ingredient : FormIngredient) : Bool :=
  truthy ingredient.name && decide (trimmedLength ingredient.name > 0) &&
    truthy ingredient.quantity && decide (trimmedLength ingredient.quantity > 0)

/-- `validateCookingStep(step)` (lines 506-511) for an object: the truthiness
of the value it returns. -/
def validateCookingStep (step : FormStep) : Bool :=
  truthy step.instruction && decide (trimmedLength step.instruction ≥ 10)

/-- Result of `cleanRecipeData`: the properties it sets, and the properties of
the spread that the embedding carries. -/
structure CleanRecipeData where
  title : Str
  description : Str
  ingredients : List Ingredient
  steps : List Step
  cookingTime : Option Int
  category : Option Str
  difficulty : Option Str
  deriving DecidableEq, Repr

/-- `cleanRecipeData(recipeData)` (lines 516-534); `none` when `ingredients`
or `steps` is absent (`filter` of `undefined` throws). -/
def cleanRecipeData (recipeData : RecipeFormData) : Option CleanRecipeData :=
  match recipeData.ingredients, recipeData.steps with
  | some ingredients, some steps =>
    some
      { title := sanitizeInput (JSValue.ofOption recipeData.title),
        description := sanitizeInput (JSValue.ofOption recipeData.description),
        ingredients := (ingredients.filter validateIngredient).map (fun ingredient =>
          { name := sanitizeInput (JSValue.ofOption ingredient.name),
            quantity := sanitizeInput (JSValue.ofOption ingredient.quantity) }),
        steps := (steps.filter validateCookingStep).enum.map (fun p =>
          { stepNumber := p.1 + 1,
            instruction := sanitizeInput (JSValue.ofOption p.2.instruction) }),
        cookingTime := recipeData.cookingTime,
        category := recipeData.category,
        difficulty := recipeData.difficulty }
  | _, _ => none

/-- An ingredient of the output, seen as an argument of `validateIngredient`. -/
def Ingredient.toForm (i : Ingredient) : FormIngredient :=
  { name := some i.name, quantity := some i.quantity }

/-- A step of the output, seen as an argument of `validateCookingStep`. -/
def Step.toForm (s : Step) : FormStep :=
  { stepNumber := some (s.stepNumber : Int), instruction := some s.instruction }

/-! ## `likeRecipe` (`recipeController.js`, lines 130-156) -/

/-- `arr.indexOf(x)`: position of the first occurrence, `-1` when there is none. -/
def indexOf : List Str → Str → Int
  | [], _ => -1
  | y :: ys, x => if y = x then 0 else if indexOf ys x = -1 then -1 else indexOf ys x + 1

/-- What `likeRecipe` sends. -/
inductive LikeResponse where
  /-- `res.status(404).json({ message })` -/
  | notFound (message : String)
  /-- `res.json({ message, liked, likesCount })` -/
  | ok (message : String) (liked : Bool) (likesCount : Nat)
  deriving DecidableEq, Repr

/-- Handler `likeRecipe` for the document `found` that `findById` yields
(`none` when there is none) and the user `userId` (`req.user._id`).  The first
component is the document passed to `save`.  A rejection of `findById` or
`save` (answer 500) is not part of the embedding. -/
def likeRecipe (found : Option Recipe) (userId : Str) : Option Recipe × LikeResponse :=
  match found with
  | none => (none, .notFound "Recipe not found")
  | some recipe =>
    let userIndex := indexOf recipe.likes userId
    let likes :=
      if userIndex > -1 then recipe.likes.eraseIdx userIndex.toNat
      else recipe.likes ++ [userId]
    (some { recipe with likes := likes },
      .ok "Recipe like status updated" (userIndex == -1) likes.length)

/-! ## Lemmas on the string primitives -/

theorem startsWith_nil_right (h : Str) : startsWith h [] = true := by
  cases h <;> rfl

theorem startsWith_eq_true_iff (h n : Str) : startsWith h n = true ↔ n <+: h := by
  induction h generalizing n with
  | nil =>
    cases n with
    | nil => simp [startsWith]
    | cons a as => simp [startsWith]
  | cons b bs ih =>
    cases n with
    | nil => simp [startsWith]
    | cons a as =>
      simp only [startsWith, Bool.and_eq_true, beq_iff_eq, ih, List.cons_prefix_cons]
      constructor
      · rintro ⟨h1, h2⟩; exact ⟨h1.symm, h2⟩
      · rintro ⟨h1, h2⟩; exact ⟨h1.symm, h2⟩

theorem includes_eq_true_iff (h n : Str) : includes h n = true ↔ n <:+: h := by
  induction h with
  | nil =>
    simp only [includes, startsWith_eq_true_iff, List.prefix_nil, List.infix_nil]
  | cons b bs ih =>
    simp only [includes, Bool.or_eq_true, startsWith_eq_true_iff, ih, List.infix_cons_iff]

theorem includes_nil (h : Str) : includes h [] = true := by
  rw [includes_eq_true_iff]; exact List.nil_infix

theorem split_ne_nil (sep : Char) (s : Str) : split sep s ≠ [] := by
  cases s with
  | nil => simp [split]
  | cons c cs =>
    simp only [split]
    split_ifs
    · simp
    · split <;> simp

/-! ## Lemmas on the stable sort -/

section SortLemmas

variable {α : Type} (cmp : α → α → Int)

theorem insertBy_perm (x : α) (l : List α) : (insertBy cmp x l).Perm (x :: l) := by
  induction l with
  | nil => exact List.Perm.refl _
  | cons y ys ih =>
    simp only [insertBy]
    split_ifs
    · exact List.Perm.refl _
    · exact (List.Perm.cons y ih).trans (List.Perm.swap x y ys)

theorem sort_perm (l : List α) : (sort cmp l).Perm l := by
  induction l with
  | nil => exact List.Perm.refl _
  | cons x xs ih => exact (insertBy_perm cmp x _).trans (List.Perm.cons x ih)

theorem mem_insertBy {x z : α} {l : List α} : z ∈ insertBy cmp x l ↔ z = x ∨ z ∈ l := by
  rw [(insertBy_perm cmp x l).mem_iff, List.mem_cons]

theorem mem_sort {z : α} {l : List α} : z ∈ sort cmp l ↔ z ∈ l :=
  (sort_perm cmp l).mem_iff

variable (key : α → Nat) (hc : ∀ a b, cmp a b ≤ 0 ↔ key b ≤ key a)

include hc in
theorem insertBy_pairwise (x : α) (l : List α)
    (hl : l.Pairwise (fun a b => key b ≤ key a)) :
    (insertBy cmp x l).Pairwise (fun a b => key b ≤ key a) := by
  induction l with
  | nil => simp [insertBy]
  | cons y ys ih =>
    rw [List.pairwise_cons] at hl
    simp only [insertBy]
    split_ifs with h
    · rw [hc] at h
      refine List.Pairwise.cons ?_ (List.Pairwise.cons hl.1 hl.2)
      intro z hz
      rcases List.mem_cons.mp hz with rfl | hz
      · exact h
      · exact le_trans (hl.1 z hz) h
    · rw [hc] at h
      refine List.Pairwise.cons ?_ (ih hl.2)
      intro z hz
      rcases (mem_insertBy cmp).mp hz with rfl | hz
      · omega
      · exact hl.1 z hz

include hc in
theorem sort_pairwise (l : List α) :
    (sort cmp l).Pairwise (fun a b => key b ≤ key a) := by
  induction l with
  | nil => exact List.Pairwise.nil
  | cons x xs ih => exact insertBy_pairwise cmp key hc x _ ih

include hc in
theorem filter_key_insertBy (k : Nat) (x : α) (l : List α) :
    (insertBy cmp x l).filter (fun a => decide (key a = k)) =
      (x :: l).filter (fun a => decide (key a = k)) := by
  induction l with
  | nil => simp [insertBy]
  | cons y ys ih =>
    simp only [insertBy]
    split_ifs with h
    · rfl
    · rw [hc] at h
      rw [List.filter_cons, ih]
      by_cases hx : key x = k
      · have hy : ¬ key y = k := by omega
        simp [List.filter_cons, hx, hy]
      · simp [List.filter_cons, hx]

include hc in
theorem filter_key_sort (k : Nat) (l : List α) :
    (sort cmp l).filter (fun a => decide (key a = k)) =
      l.filter (fun a => decide (key a = k)) := by
  induction l with
  | nil => rfl
  | cons x xs ih =>
    show (insertBy cmp x (sort cmp xs)).filter _ = _
    rw [filter_key_insertBy cmp key hc, List.filter_cons, List.filter_cons, ih]

include hc in
theorem filter_pos_insertBy (x : α) (l : List α)
    (hl : l.Pairwise (fun a b => key b ≤ key a)) :
    (insertBy cmp x l).filter (fun a => decide (key a ≠ 0)) =
      if key x ≠ 0 then insertBy cmp x (l.filter (fun a => decide (key a ≠ 0)))
      else l.filter (fun a => decide (key a ≠ 0)) := by
  induction l with
  | nil => by_cases hx : key x = 0 <;> simp [insertBy, hx]
  | cons y ys ih =>
    rw [List.pairwise_cons] at hl
    simp only [insertBy]
    by_cases h : cmp x y ≤ 0
    · rw [if_pos h]
      have h' := (hc x y).mp h
      by_cases hx : key x = 0
      · have hy : key y = 0 := by omega
        have hys : ∀ z ∈ ys, ¬ (decide (key z ≠ 0) = true) := by
          intro z hz
          have := hl.1 z hz
          simp; omega
        have e : ys.filter (fun a => decide (key a ≠ 0)) = [] :=
          List.filter_eq_nil_iff.mpr hys
        simp only [List.filter_cons, e]
        simp [hx, hy]
      · by_cases hy : key y = 0
        · have hys : ∀ z ∈ ys, ¬ (decide (key z ≠ 0) = true) := by
            intro z hz
            have := hl.1 z hz
            simp; omega
          have e : ys.filter (fun a => decide (key a ≠ 0)) = [] :=
            List.filter_eq_nil_iff.mpr hys
          simp only [List.filter_cons, e]
          simp [hx, hy, insertBy]
        · simp [List.filter_cons, hx, hy, insertBy, h]
    · rw [if_neg h]
      have h' : ¬ key y ≤ key x := fun hh => h ((hc x y).mpr hh)
      have hy : key y ≠ 0 := by omega
      rw [List.filter_cons, ih hl.2]
      by_cases hx : key x = 0
      · simp [List.filter_cons, hx, hy]
      · simp [List.filter_cons, hx, hy, insertBy, h]

include hc in
theorem filter_pos_sort (l : List α) :
    (sort cmp l).filter (fun a => decide (key a ≠ 0)) =
      sort cmp (l.filter (fun a => decide (key a ≠ 0))) := by
  induction l with
  | nil => rfl
  | cons x xs ih =>
    show (insertBy cmp x (sort cmp xs)).filter _ = _
    rw [filter_pos_insertBy cmp key hc x _ (sort_pairwise cmp key hc xs), ih]
    by_cases hx : key x = 0
    · simp [List.filter_cons, hx]
    · simp [List.filter_cons, hx, sort]

theorem map_insertBy {β : Type} (f : β → α) (x : β) (l : List β) :
    (insertBy (fun a b => cmp (f a) (f b)) x l).map f = insertBy cmp (f x) (l.map f) := by
  induction l with
  | nil => rfl
  | cons y ys ih =>
    simp only [insertBy, List.map_cons]
    split_ifs
    · rfl
    · simp [ih]

theorem map_sort {β : Type} (f : β → α) (l : List β) :
    (sort (fun a b => cmp (f a) (f b)) l).map f = sort cmp (l.map f) := by
  induction l with
  | nil => rfl
  | cons x xs ih =>
    show (insertBy _ x (sort _ xs)).map f = insertBy cmp (f x) (sort cmp (xs.map f))
    rw [map_insertBy, ih]

end SortLemmas

/-! ## Order of two entries in a sorted array -/

theorem pair_sublist_or {α : Type} {a b : α} {l : List α} (ha : a ∈ l) (hb : b ∈ l)
    (hab : a ≠ b) : List.Sublist [a, b] l ∨ List.Sublist [b, a] l := by
  induction l with
  | nil => simp at ha
  | cons x xs ih =>
    by_cases hxa : x = a
    · subst hxa
      have hb' : b ∈ xs := by
        rcases List.mem_cons.mp hb with h | h
        · exact absurd h.symm hab
        · exact h
      exact Or.inl (List.Sublist.cons₂ _ (List.singleton_sublist.mpr hb'))
    · by_cases hxb : x = b
      · subst hxb
        have ha' : a ∈ xs := by
          rcases List.mem_cons.mp ha with h | h
          · exact absurd h.symm hxa
          · exact h
        exact Or.inr (List.Sublist.cons₂ _ (List.singleton_sublist.mpr ha'))
      · have ha' : a ∈ xs := by
          rcases List.mem_cons.mp ha with h | h
          · exact absurd h.symm hxa
          · exact h
        have hb' : b ∈ xs := by
          rcases List.mem_cons.mp hb with h | h
          · exact absurd h.symm hxb
          · exact h
        rcases ih ha' hb' with h | h
        · exact Or.inl (List.Sublist.cons _ h)
        · exact Or.inr (List.Sublist.cons _ h)

theorem pair_sublist_sort_iff {α : Type} (cmp : α → α → Int) (key : α → Nat)
    (hc : ∀ a b, cmp a b ≤ 0 ↔ key b ≤ key a) {a b : α} {l : List α}
    (ha : a ∈ l) (hb : b ∈ l) (hab : a ≠ b) :
    List.Sublist [a, b] (sort cmp l) ↔ key b < key a ∨ (key a = key b ∧ List.Sublist [a, b] l) := by
  have hsorted := sort_pairwise cmp key hc l
  constructor
  · intro h
    have hle : key b ≤ key a := by
      have := List.Pairwise.sublist h hsorted
      simpa using this
    rcases Nat.lt_or_ge (key b) (key a) with hlt | hge
    · exact Or.inl hlt
    · have hk : key a = key b := le_antisymm hge hle
      refine Or.inr ⟨hk, ?_⟩
      have h1 := List.Sublist.filter (fun z => decide (key z = key a)) h
      rw [filter_key_sort cmp key hc] at h1
      have h2 : [a, b].filter (fun z => decide (key z = key a)) = [a, b] := by
        simp [List.filter_cons, hk]
      rw [h2] at h1
      exact h1.trans (List.filter_sublist _)
  · rintro (hlt | ⟨hk, hsub⟩)
    · rcases pair_sublist_or ((mem_sort cmp).mpr ha) ((mem_sort cmp).mpr hb) hab with h | h
      · exact h
      · exfalso
        have := List.Pairwise.sublist h hsorted
        have hle : key a ≤ key b := by simpa using this
        omega
    · have h1 := List.Sublist.filter (fun z => decide (key z = key a)) hsub
      rw [← filter_key_sort cmp key hc (key a) l] at h1
      have h2 : [a, b].filter (fun z => decide (key z = key a)) = [a, b] := by
        simp [List.filter_cons, hk]
      rw [h2] at h1
      exact h1.trans (List.filter_sublist _)

theorem enum_pairwise_fst {α : Type} (l : List α) :
    l.enum.Pairwise (fun a b => a.1 < b.1) := by
  have h : (l.enum.map Prod.fst).Pairwise (· < ·) := by
    rw [List.enum_map_fst]; exact List.pairwise_lt_range _
  exact List.pairwise_map.mp h

theorem enum_pair_sublist_iff {α : Type} {l : List α} {a b : Nat × α}
    (ha : a ∈ l.enum) (hb : b ∈ l.enum) : List.Sublist [a, b] l.enum ↔ a.1 < b.1 := by
  constructor
  · intro h
    have := List.Pairwise.sublist h (enum_pairwise_fst l)
    simpa using this
  · intro hlt
    have hab : a ≠ b := by
      intro e; rw [e] at hlt; exact Nat.lt_irrefl _ hlt
    rcases pair_sublist_or ha hb hab with h | h
    · exact h
    · exfalso
      have := List.Pairwise.sublist h (enum_pairwise_fst l)
      have hlt' : b.1 < a.1 := by simpa using this
      omega

/-! ## Lemmas on the handler -/

theorem compareMatchCount_le (a b : RankedRecipe) :
    compareMatchCount a b ≤ 0 ↔ b.matchCount ≤ a.matchCount := by
  unfold compareMatchCount; omega

theorem any_includes_iff (toLowerCase : Str → Str) (terms : List Str) (i : Ingredient) :
    terms.any (fun userIng => includes (toLowerCase i.name) userIng) = true ↔
      IsMatchContributor toLowerCase terms i := by
  simp only [List.any_eq_true, includes_eq_true_iff, IsMatchContributor]

theorem matchCount_eq_contributorCount (toLowerCase : Str → Str) (terms : List Str)
    (recipe : Recipe) :
    matchCount toLowerCase terms recipe = contributorCount toLowerCase terms recipe := by
  unfold matchCount contributorCount
  rw [List.countP_eq_length_filter]
  congr 1
  apply List.filter_congr
  intro i _
  rw [Bool.eq_iff_iff, any_includes_iff]
  simp

theorem searchByIngredients_ok (toLowerCase : Str → Str)
    (find : List Str → Except String (List Recipe)) (q : Str) (candidates : List Recipe)
    (hq : q ≠ []) (hfind : find (ingredientList toLowerCase q) = .ok candidates) :
    searchByIngredients toLowerCase find (some q) =
      .ok (rankRecipes toLowerCase (ingredientList toLowerCase q) candidates) := by
  cases q with
  | nil => exact absurd rfl hq
  | cons c cs => simp only [searchByIngredients, hfind]

theorem rankRecipes_perm (toLowerCase : Str → Str) (terms : List Str) (recipes : List Recipe) :
    (rankRecipes toLowerCase terms recipes).Perm
      (recipesWithMatchCount toLowerCase terms recipes) :=
  sort_perm _ _

theorem map_recipe_recipesWithMatchCount (toLowerCase : Str → Str) (terms : List Str)
    (recipes : List Recipe) :
    (recipesWithMatchCount toLowerCase terms recipes).map (fun e => e.recipe) = recipes := by
  simp [recipesWithMatchCount, Function.comp_def]

theorem mem_rankRecipes (toLowerCase : Str → Str) (terms : List Str) (recipes : List Recipe)
    (e : RankedRecipe) :
    e ∈ rankRecipes toLowerCase terms recipes ↔
      e.recipe ∈ recipes ∧ e.matchCount = matchCount toLowerCase terms e.recipe := by
  rw [(rankRecipes_perm toLowerCase terms recipes).mem_iff]
  simp only [recipesWithMatchCount, List.mem_map]
  constructor
  · rintro ⟨r, hr, rfl⟩; exact ⟨hr, rfl⟩
  · rintro ⟨hr, hm⟩
    refine ⟨e.recipe, hr, ?_⟩
    cases e; simp_all

/-! ## Match count -/

/-- C1: when the store query succeeds, every entry of the answer of
`searchByIngredients` carries as `matchCount` the number of ingredients of its
recipe whose lower-cased name contains, as a substring, at least one of the
trimmed and lower-cased pantry terms (an ingredient is counted once however
many terms it contains), and every candidate has such an entry. -/
theorem searchByIngredients_matchCount (toLowerCase : Str → Str)
    (find : List Str → Except String (List Recipe)) (q : Str) (candidates : List Recipe)
    (hq : q ≠ []) (hfind : find (ingredientList toLowerCase q) = .ok candidates) :
    ∃ out, searchByIngredients toLowerCase find (some q) = .ok out ∧
      (∀ e ∈ out, e.recipe ∈ candidates ∧
        e.matchCount =
          contributorCount toLowerCase ((split ',' q).map (fun t => toLowerCase (trim t)))
            e.recipe) ∧
      (∀ r ∈ candidates,
        (⟨r, contributorCount toLowerCase ((split ',' q).map (fun t => toLowerCase (trim t))) r⟩ :
          RankedRecipe) ∈ out) := by
  refine ⟨_, searchByIngredients_ok toLowerCase find q candidates hq hfind, ?_, ?_⟩
  · intro e he
    rw [mem_rankRecipes] at he
    exact ⟨he.1, by rw [he.2, matchCount_eq_contributorCount]; rfl⟩
  · intro r hr
    rw [mem_rankRecipes]
    exact ⟨hr, by rw [matchCount_eq_contributorCount]; rfl⟩

/-- Witness of C1 on scenario 1. -/
theorem searchByIngredients_matchCount_witness :
    ("Tomato,cheese".toList ≠ [] ∧
      (fun _ => Except.ok [candidateA, candidateB] : List Str → Except String (List Recipe))
        (ingredientList asciiToLowerCase "Tomato,cheese".toList) =
        .ok [candidateA, candidateB]) ∧
    ∃ out, searchByIngredients asciiToLowerCase (fun _ => .ok [candidateA, candidateB])
        (some "Tomato,cheese".toList) = .ok out ∧
      (∀ e ∈ out, e.recipe ∈ [candidateA, candidateB] ∧
        e.matchCount =
          contributorCount asciiToLowerCase
            ((split ',' "Tomato,cheese".toList).map (fun t => asciiToLowerCase (trim t)))
            e.recipe) ∧
      (∀ r ∈ [candidateA, candidateB],
        (⟨r, contributorCount asciiToLowerCase
            ((split ',' "Tomato,cheese".toList).map (fun t => asciiToLowerCase (trim t))) r⟩ :
          RankedRecipe) ∈ out) :=
  ⟨⟨by decide, rfl⟩,
    searchByIngredients_matchCount asciiToLowerCase _ "Tomato,cheese".toList
      [candidateA, candidateB] (by decide) rfl⟩

/-! ## Ordering of the answer -/

/-- C2: when the store query succeeds, the answer of `searchByIngredients` is
ordered by non-increasing `matchCount`: of two adjacent entries the earlier has
a `matchCount` at least that of the later (and so has any earlier entry with
respect to any later one). -/
theorem searchByIngredients_sorted (toLowerCase : Str → Str)
    (find : List Str → Except String (List Recipe)) (q : Str) (candidates : List Recipe)
    (hq : q ≠ []) (hfind : find (ingredientList toLowerCase q) = .ok candidates) :
    ∃ out, searchByIngredients toLowerCase find (some q) = .ok out ∧
      out.Chain' (fun a b => a.matchCount ≥ b.matchCount) ∧
      out.Pairwise (fun a b => a.matchCount ≥ b.matchCount) := by
  have hp : (rankRecipes toLowerCase (ingredientList toLowerCase q) candidates).Pairwise
      (fun a b => a.matchCount ≥ b.matchCount) :=
    sort_pairwise compareMatchCount (fun e => e.matchCount) compareMatchCount_le _
  exact ⟨_, searchByIngredients_ok toLowerCase find q candidates hq hfind,
    List.Pairwise.chain' hp, hp⟩

/-- Witness of C2 on scenario 1. -/
theorem searchByIngredients_sorted_witness :
    ("Tomato,cheese".toList ≠ [] ∧
      (fun _ => Except.ok [candidateA, candidateB] : List Str → Except String (List Recipe))
        (ingredientList asciiToLowerCase "Tomato,cheese".toList) =
        .ok [candidateA, candidateB]) ∧
    ∃ out, searchByIngredients asciiToLowerCase (fun _ => .ok [candidateA, candidateB])
        (some "Tomato,cheese".toList) = .ok out ∧
      out.Chain' (fun a b => a.matchCount ≥ b.matchCount) ∧
      out.Pairwise (fun a b => a.matchCount ≥ b.matchCount) :=
  ⟨⟨by decide, rfl⟩,
    searchByIngredients_sorted asciiToLowerCase _ "Tomato,cheese".toList
      [candidateA, candidateB] (by decide) rfl⟩

/-- C3: the sort of `searchByIngredients` is stable.  When the store query
succeeds, for every value `k` the entries of the answer with `matchCount = k`
are, in this order, the candidates with `matchCount = k` in their input order;
hence two candidates of equal `matchCount` of which one precedes the other in
the input appear in the same relative order in the answer. -/
theorem searchByIngredients_stable (toLowerCase : Str → Str)
    (find : List Str → Except String (List Recipe)) (q : Str) (candidates : List Recipe)
    (hq : q ≠ []) (hfind : find (ingredientList toLowerCase q) = .ok candidates) :
    ∃ out, searchByIngredients toLowerCase find (some q) = .ok out ∧
      (∀ k, out.filter (fun e => decide (e.matchCount = k)) =
        (recipesWithMatchCount toLowerCase (ingredientList toLowerCase q) candidates).filter
          (fun e => decide (e.matchCount = k))) ∧
      (∀ a b : RankedRecipe, a.matchCount = b.matchCount →
        List.Sublist [a, b]
          (recipesWithMatchCount toLowerCase (ingredientList toLowerCase q) candidates) →
        List.Sublist [a, b] out) := by
  have hf := filter_key_sort compareMatchCount (fun e => e.matchCount) compareMatchCount_le
  refine ⟨_, searchByIngredients_ok toLowerCase find q candidates hq hfind, ?_, ?_⟩
  · intro k
    exact hf k _
  · intro a b hab hsub
    have h1 := List.Sublist.filter (fun e : RankedRecipe => decide (e.matchCount = a.matchCount)) hsub
    rw [← hf a.matchCount
      (recipesWithMatchCount toLowerCase (ingredientList toLowerCase q) candidates)] at h1
    have h2 : [a, b].filter (fun e : RankedRecipe => decide (e.matchCount = a.matchCount)) =
        [a, b] := by
      simp [List.filter_cons, hab]
    rw [h2] at h1
    exact h1.trans (List.filter_sublist _)

/-- Witness of C3 on scenario 4 (two candidates of `matchCount` 1). -/
theorem searchByIngredients_stable_witness :
    ("Tomato,cheese".toList ≠ [] ∧
      (fun _ => Except.ok [candidateC, candidateD] : List Str → Except String (List Recipe))
        (ingredientList asciiToLowerCase "Tomato,cheese".toList) =
        .ok [candidateC, candidateD]) ∧
    ∃ out, searchByIngredients asciiToLowerCase (fun _ => .ok [candidateC, candidateD])
        (some "Tomato,cheese".toList) = .ok out ∧
      (∀ k, out.filter (fun e => decide (e.matchCount = k)) =
        (recipesWithMatchCount asciiToLowerCase
          (ingredientList asciiToLowerCase "Tomato,cheese".toList)
          [candidateC, candidateD]).filter (fun e => decide (e.matchCount = k))) ∧
      (∀ a b : RankedRecipe, a.matchCount = b.matchCount →
        List.Sublist [a, b]
          (recipesWithMatchCount asciiToLowerCase
            (ingredientList asciiToLowerCase "Tomato,cheese".toList)
            [candidateC, candidateD]) →
        List.Sublist [a, b] out) :=
  ⟨⟨by decide, rfl⟩,
    searchByIngredients_stable asciiToLowerCase _ "Tomato,cheese".toList
      [candidateC, candidateD] (by decide) rfl⟩

/-! ## Rejected requests and blank terms -/

/-- C4, as the code has it: `searchByIngredients` answers with status 400
exactly when the `ingredients` parameter is absent or the empty string.  Every
other value, also one whose entries are all blank, passes the guard of line 96. -/
theorem searchByIngredients_status_400_iff (toLowerCase : Str → Str)
    (find : List Str → Except String (List Recipe)) (ingredients : Option Str) :
    (searchByIngredients toLowerCase find ingredients).status = 400 ↔
      (ingredients = none ∨ ingredients = some []) := by
  cases ingredients with
  | none => simp [searchByIngredients, Response.status]
  | some q =>
    cases q with
    | nil => simp [searchByIngredients, Response.status]
    | cons c cs =>
      simp only [searchByIngredients]
      cases find (ingredientList toLowerCase (c :: cs)) <;> simp [Response.status]

/-- C4 fails for the request value `" , "`: both entries are blank after
trimming, yet the handler queries the store with the two empty terms, gets
every recipe back and answers with status 200 and a ranked result. -/
theorem blank_terms_not_rejected :
    (∀ t ∈ split ',' " , ".toList, trim t = []) ∧
    searchByIngredients asciiToLowerCase (storeFind newRegExp [candidateA])
        (some " , ".toList) = .ok [⟨candidateA, 2⟩] ∧
    (searchByIngredients asciiToLowerCase (storeFind newRegExp [candidateA])
        (some " , ".toList)).status = 200 := by
  decide

theorem mem_ingredientList_of_blank (toLowerCase : Str → Str) (q : Str)
    (hlow : toLowerCase [] = []) (hblank : ∃ e ∈ split ',' q, trim e = []) :
    [] ∈ ingredientList toLowerCase q := by
  obtain ⟨e, he, ht⟩ := hblank
  simp only [ingredientList, List.mem_map]
  exact ⟨e, he, by rw [ht, hlow]⟩

theorem matchCount_of_nil_mem (toLowerCase : Str → Str) (terms : List Str)
    (h : [] ∈ terms) (recipe : Recipe) :
    matchCount toLowerCase terms recipe = recipe.ingredients.length := by
  unfold matchCount
  congr 1
  apply List.filter_eq_self.mpr
  intro i _
  exact List.any_eq_true.mpr ⟨[], h, includes_nil _⟩

/-- C5, as the code has it: for every parameter, the term list used for
matching has one term for every comma-separated entry of the parameter, in the
order of the entries, and the term is the entry trimmed and lower-cased.  Blank
entries are not discarded: when the parameter has a blank entry, the term list
holds the empty term (the lower-cased form of the empty string being the empty
string), every ingredient name includes the empty term, and so the `matchCount`
of every recipe is the number of its ingredients. -/
theorem ingredientList_keeps_blank_entries (toLowerCase : Str → Str) (q : Str) :
    (ingredientList toLowerCase q).length = (split ',' q).length ∧
    (∀ n (hn : n < (split ',' q).length),
      (ingredientList toLowerCase q)[n]? = some (toLowerCase (trim ((split ',' q)[n])))) ∧
    (toLowerCase [] = [] → (∃ e ∈ split ',' q, trim e = []) →
      [] ∈ ingredientList toLowerCase q ∧
      ∀ recipe : Recipe,
        matchCount toLowerCase (ingredientList toLowerCase q) recipe =
          recipe.ingredients.length) := by
  refine ⟨by simp [ingredientList], ?_, ?_⟩
  · intro n hn
    simp [ingredientList, List.getElem?_eq_getElem hn]
  · intro hlow hblank
    have hmem := mem_ingredientList_of_blank toLowerCase q hlow hblank
    exact ⟨hmem, fun recipe => matchCount_of_nil_mem toLowerCase _ hmem recipe⟩

/-- Witness of C5 as the code has it, on the request value `"tomato,,"`, which has
blank entries, and on `"tomato,cheese"`, which has none. -/
theorem ingredientList_keeps_blank_entries_witness :
    (asciiToLowerCase [] = [] ∧ ∃ e ∈ split ',' "tomato,,".toList, trim e = []) ∧
    ([] ∈ ingredientList asciiToLowerCase "tomato,,".toList ∧
      ∀ recipe : Recipe,
        matchCount asciiToLowerCase (ingredientList asciiToLowerCase "tomato,,".toList) recipe =
          recipe.ingredients.length) ∧
    (ingredientList asciiToLowerCase "tomato,cheese".toList).length =
      (split ',' "tomato,cheese".toList).length ∧
    ingredientList asciiToLowerCase "tomato,cheese".toList =
      ["tomato".toList, "cheese".toList] :=
  ⟨⟨rfl, [], by decide, rfl⟩,
    (ingredientList_keeps_blank_entries asciiToLowerCase "tomato,,".toList).2.2 rfl
      ⟨[], by decide, rfl⟩,
    (ingredientList_keeps_blank_entries asciiToLowerCase "tomato,cheese".toList).1,
    by decide⟩

/-- C5 fails for the request value `"tomato,,"`: the term list used for
matching is `["tomato", "", ""]`, it holds the empty string, and the recipe
whose only ingredient is Basil gets `matchCount` 1 although Basil does not
contain `tomato`. -/
theorem blank_entry_counts_as_match :
    ingredientList asciiToLowerCase "tomato,,".toList = ["tomato".toList, [], []] ∧
    [] ∈ ingredientList asciiToLowerCase "tomato,,".toList ∧
    includes (asciiToLowerCase "Basil".toList) "tomato".toList = false ∧
    matchCount asciiToLowerCase (ingredientList asciiToLowerCase "tomato,,".toList)
      (mkRecipe "P" [("Basil", "1 bunch")]) = 1 := by
  decide

/-! ## Permutation, empty candidate list, scenario 1 -/

/-- C6: when the store query succeeds, the recipes of the answer of
`searchByIngredients` are a permutation of the candidates, the answer has as
many entries as there are candidates, and a candidate whose `matchCount` is 0
is in the answer (with `matchCount` 0). -/
theorem searchByIngredients_perm (toLowerCase : Str → Str)
    (find : List Str → Except String (List Recipe)) (q : Str) (candidates : List Recipe)
    (hq : q ≠ []) (hfind : find (ingredientList toLowerCase q) = .ok candidates) :
    ∃ out, searchByIngredients toLowerCase find (some q) = .ok out ∧
      (out.map (fun e => e.recipe)).Perm candidates ∧
      out.length = candidates.length ∧
      (∀ r ∈ candidates, matchCount toLowerCase (ingredientList toLowerCase q) r = 0 →
        (⟨r, 0⟩ : RankedRecipe) ∈ out) := by
  have hperm := rankRecipes_perm toLowerCase (ingredientList toLowerCase q) candidates
  have hmap := map_recipe_recipesWithMatchCount toLowerCase (ingredientList toLowerCase q)
    candidates
  refine ⟨_, searchByIngredients_ok toLowerCase find q candidates hq hfind, ?_, ?_, ?_⟩
  · have := hperm.map (fun e => e.recipe)
    rwa [hmap] at this
  · rw [hperm.length_eq]; simp [recipesWithMatchCount]
  · intro r hr h0
    rw [mem_rankRecipes]
    exact ⟨hr, h0.symm⟩

/-- Witness of C6 on scenario 2: the only candidate has no ingredient with `xyz`. -/
theorem searchByIngredients_perm_witness :
    ("xyz".toList ≠ [] ∧
      (fun _ => Except.ok [candidateA] : List Str → Except String (List Recipe))
        (ingredientList asciiToLowerCase "xyz".toList) = .ok [candidateA]) ∧
    ∃ out, searchByIngredients asciiToLowerCase (fun _ => .ok [candidateA])
        (some "xyz".toList) = .ok out ∧
      (out.map (fun e => e.recipe)).Perm [candidateA] ∧
      out.length = [candidateA].length ∧
      (∀ r ∈ [candidateA],
        matchCount asciiToLowerCase (ingredientList asciiToLowerCase "xyz".toList) r = 0 →
        (⟨r, 0⟩ : RankedRecipe) ∈ out) :=
  ⟨⟨by decide, rfl⟩,
    searchByIngredients_perm asciiToLowerCase _ "xyz".toList [candidateA] (by decide) rfl⟩

/-- C8: for a non-empty parameter (its list of pantry terms is then non-empty)
and a store query that yields no candidate, `searchByIngredients` answers with
the empty recipe sequence, status 200. -/
theorem searchByIngredients_no_candidates (toLowerCase : Str → Str)
    (find : List Str → Except String (List Recipe)) (q : Str)
    (hq : q ≠ []) (hfind : find (ingredientList toLowerCase q) = .ok []) :
    split ',' q ≠ [] ∧
    searchByIngredients toLowerCase find (some q) = .ok [] ∧
    (searchByIngredients toLowerCase find (some q)).status = 200 := by
  have h := searchByIngredients_ok toLowerCase find q [] hq hfind
  exact ⟨split_ne_nil _ _, h, by rw [h]; rfl⟩

/-- Witness of C8: the terms `tomato` and `cheese` against an empty store. -/
theorem searchByIngredients_no_candidates_witness :
    ("Tomato,cheese".toList ≠ [] ∧
      storeFind newRegExp [] (ingredientList asciiToLowerCase "Tomato,cheese".toList) =
        .ok []) ∧
    (split ',' "Tomato,cheese".toList ≠ [] ∧
      searchByIngredients asciiToLowerCase (storeFind newRegExp [])
        (some "Tomato,cheese".toList) = .ok [] ∧
      (searchByIngredients asciiToLowerCase (storeFind newRegExp [])
        (some "Tomato,cheese".toList)).status = 200) :=
  ⟨⟨by decide, rfl⟩,
    searchByIngredients_no_candidates asciiToLowerCase (storeFind newRegExp [])
      "Tomato,cheese".toList (by decide) rfl⟩

/-- C9: scenario 1.  The parameter `Tomato,cheese` splits into the pantry terms
`Tomato` and `cheese`; for the candidates A (Tomatoes, Basil) and B (Mozzarella
Cheese, Tomato), given in the order A, B, the handler computes `matchCount` 1
for A and 2 for B and answers with B before A. -/
theorem scenario_tomato_cheese :
    split ',' "Tomato,cheese".toList = ["Tomato".toList, "cheese".toList] ∧
    candidateA.ingredients.map (fun i => i.name) = ["Tomatoes".toList, "Basil".toList] ∧
    candidateB.ingredients.map (fun i => i.name) =
      ["Mozzarella Cheese".toList, "Tomato".toList] ∧
    matchCount asciiToLowerCase (ingredientList asciiToLowerCase "Tomato,cheese".toList)
      candidateA = 1 ∧
    matchCount asciiToLowerCase (ingredientList asciiToLowerCase "Tomato,cheese".toList)
      candidateB = 2 ∧
    searchByIngredients asciiToLowerCase (fun _ => .ok [candidateA, candidateB])
      (some "Tomato,cheese".toList) = .ok [⟨candidateB, 2⟩, ⟨candidateA, 1⟩] := by
  decide

/-! ## Monotonicity -/

theorem matchCount_addIngredient (toLowerCase : Str → Str) (terms : List Str)
    (recipe : Recipe) (extra : Ingredient) :
    matchCount toLowerCase terms (recipe.addIngredient extra) =
      matchCount toLowerCase terms recipe +
        (if terms.any (fun userIng => includes (toLowerCase extra.name) userIng) = true
          then 1 else 0) := by
  unfold matchCount Recipe.addIngredient
  simp only [List.filter_append, List.length_append]
  congr 1
  by_cases h : terms.any (fun userIng => includes (toLowerCase extra.name) userIng) = true
  · simp [List.filter_cons, h]
  · rw [if_neg h]
    simp only [Bool.not_eq_true] at h
    simp [List.filter_cons, h]

theorem rankedWithPosition_map_snd (toLowerCase : Str → Str) (terms : List Str)
    (recipes : List Recipe) :
    (rankedWithPosition toLowerCase terms recipes).map Prod.snd =
      rankRecipes toLowerCase terms recipes := by
  unfold rankedWithPosition rankRecipes
  rw [map_sort compareMatchCount Prod.snd, List.enum_map_snd]

theorem mem_enum_recipesWithMatchCount (toLowerCase : Str → Str) (terms : List Str)
    (recipes : List Recipe) (n : Nat) (r : Recipe) (h : recipes[n]? = some r) :
    (n, (⟨r, matchCount toLowerCase terms r⟩ : RankedRecipe)) ∈
      (recipesWithMatchCount toLowerCase terms recipes).enum := by
  rw [List.mem_enum_iff_getElem?]
  simp [recipesWithMatchCount, List.getElem?_map, h]

/-- C7: appending an ingredient to a recipe never decreases its `matchCount`,
increases it by exactly one when the lower-cased name of the ingredient
includes a pantry term (and leaves it unchanged otherwise); consequently, when
the recipe at position `i` of the candidate list is replaced by the recipe with
the added ingredient, every candidate (at a position `j` other than `i`, its
`matchCount` unchanged) that the recipe preceded in the sorted array is still
preceded by it.  Array entries are identified by the position of their
candidate in the input; dropping the positions gives the array the handler
sends. -/
theorem addIngredient_monotone (toLowerCase : Str → Str) (terms : List Str)
    (r : Recipe) (extra : Ingredient) :
    matchCount toLowerCase terms r ≤ matchCount toLowerCase terms (r.addIngredient extra) ∧
    (terms.any (fun userIng => includes (toLowerCase extra.name) userIng) = true →
      matchCount toLowerCase terms (r.addIngredient extra) =
        matchCount toLowerCase terms r + 1) ∧
    (terms.any (fun userIng => includes (toLowerCase extra.name) userIng) = false →
      matchCount toLowerCase terms (r.addIngredient extra) = matchCount toLowerCase terms r) ∧
    (∀ (candidates : List Recipe) (i j : Nat) (c : Recipe),
      candidates[i]? = some r → candidates[j]? = some c → j ≠ i →
      List.Sublist
        [(i, (⟨r, matchCount toLowerCase terms r⟩ : RankedRecipe)),
          (j, ⟨c, matchCount toLowerCase terms c⟩)]
        (rankedWithPosition toLowerCase terms candidates) →
      List.Sublist
        [(i, (⟨r.addIngredient extra,
            matchCount toLowerCase terms (r.addIngredient extra)⟩ : RankedRecipe)),
          (j, ⟨c, matchCount toLowerCase terms c⟩)]
        (rankedWithPosition toLowerCase terms (candidates.set i (r.addIngredient extra)))) ∧
    (∀ candidates : List Recipe,
      (rankedWithPosition toLowerCase terms candidates).map Prod.snd =
        rankRecipes toLowerCase terms candidates) := by
  have hadd := matchCount_addIngredient toLowerCase terms r extra
  refine ⟨?_, ?_, ?_, ?_, rankedWithPosition_map_snd toLowerCase terms⟩
  · rw [hadd]; exact Nat.le_add_right _ _
  · intro h; rw [hadd, if_pos h]
  · intro h; rw [hadd, if_neg (by simp [h])]; rfl
  · intro candidates i j c hi hj hne hsub
    have hlt : i < candidates.length := by
      rcases Nat.lt_or_ge i candidates.length with h | h
      · exact h
      · rw [List.getElem?_eq_none h] at hi; cases hi
    have hc : ∀ a b : Nat × RankedRecipe,
        (fun a b : Nat × RankedRecipe => compareMatchCount a.2 b.2) a b ≤ 0 ↔
          (fun e : Nat × RankedRecipe => e.2.matchCount) b ≤
            (fun e : Nat × RankedRecipe => e.2.matchCount) a :=
      fun a b => compareMatchCount_le a.2 b.2
    have ha := mem_enum_recipesWithMatchCount toLowerCase terms candidates i r hi
    have hb := mem_enum_recipesWithMatchCount toLowerCase terms candidates j c hj
    have hi' : (candidates.set i (r.addIngredient extra))[i]? = some (r.addIngredient extra) := by
      simp [List.getElem?_set, hlt]
    have hj' : (candidates.set i (r.addIngredient extra))[j]? = some c := by
      rw [List.getElem?_set_ne (Ne.symm hne)]; exact hj
    have ha' := mem_enum_recipesWithMatchCount toLowerCase terms _ i _ hi'
    have hb' := mem_enum_recipesWithMatchCount toLowerCase terms _ j _ hj'
    have hab : (i, (⟨r, matchCount toLowerCase terms r⟩ : RankedRecipe)) ≠
        (j, ⟨c, matchCount toLowerCase terms c⟩) := by
      intro e; exact hne (congrArg Prod.fst e).symm
    have hab' : (i, (⟨r.addIngredient extra,
        matchCount toLowerCase terms (r.addIngredient extra)⟩ : RankedRecipe)) ≠
        (j, ⟨c, matchCount toLowerCase terms c⟩) := by
      intro e; exact hne (congrArg Prod.fst e).symm
    unfold rankedWithPosition at hsub ⊢
    rw [pair_sublist_sort_iff _ _ hc ha hb hab] at hsub
    rw [pair_sublist_sort_iff _ _ hc ha' hb' hab']
    have hmono : matchCount toLowerCase terms r ≤
        matchCount toLowerCase terms (r.addIngredient extra) := by
      rw [hadd]; exact Nat.le_add_right _ _
    simp only at hsub ⊢
    rcases hsub with h | ⟨hk, hs⟩
    · exact Or.inl (lt_of_lt_of_le h hmono)
    · rcases Nat.lt_or_ge (matchCount toLowerCase terms r)
          (matchCount toLowerCase terms (r.addIngredient extra)) with h | h
      · exact Or.inl (by omega)
      · refine Or.inr ⟨by omega, ?_⟩
        have hij : i < j := by
          have := (enum_pair_sublist_iff ha hb).mp hs
          simpa using this
        exact (enum_pair_sublist_iff ha' hb').mpr hij

/-- Witness of C7: C and D both have `matchCount` 1 for the terms `tomato` and
`cheese`, so C (position 0) precedes D (position 1); with Parmesan cheese added
C has `matchCount` 2 and still precedes D. -/
theorem addIngredient_monotone_witness :
    List.Sublist
      [(0, (⟨candidateC, matchCount asciiToLowerCase ["tomato".toList, "cheese".toList]
          candidateC⟩ : RankedRecipe)),
        (1, ⟨candidateD, matchCount asciiToLowerCase ["tomato".toList, "cheese".toList]
          candidateD⟩)]
      (rankedWithPosition asciiToLowerCase ["tomato".toList, "cheese".toList]
        [candidateC, candidateD]) ∧
    List.Sublist
      [(0, (⟨candidateC.addIngredient ⟨"Parmesan cheese".toList, "50g".toList⟩,
          matchCount asciiToLowerCase ["tomato".toList, "cheese".toList]
            (candidateC.addIngredient ⟨"Parmesan cheese".toList, "50g".toList⟩)⟩ :
          RankedRecipe)),
        (1, ⟨candidateD, matchCount asciiToLowerCase ["tomato".toList, "cheese".toList]
          candidateD⟩)]
      (rankedWithPosition asciiToLowerCase ["tomato".toList, "cheese".toList]
        ([candidateC, candidateD].set 0
          (candidateC.addIngredient ⟨"Parmesan cheese".toList, "50g".toList⟩))) :=
  ⟨by decide,
    (addIngredient_monotone asciiToLowerCase ["tomato".toList, "cheese".toList] candidateC
      ⟨"Parmesan cheese".toList, "50g".toList⟩).2.2.2.1 [candidateC, candidateD] 0 1 candidateD
      rfl rfl (by decide) (by decide)⟩

/-! ## Pre-filter of the store -/

theorem lower_ingredientList (toLowerCase : Str → Str) (q : Str)
    (hidem : ∀ s, toLowerCase (toLowerCase s) = toLowerCase s) :
    ∀ t ∈ ingredientList toLowerCase q, toLowerCase t = t := by
  intro t ht
  simp only [ingredientList, List.mem_map] at ht
  obtain ⟨e, _, rfl⟩ := ht
  exact hidem _

theorem matchCount_ne_zero_iff (toLowerCase : Str → Str) (terms : List Str) (recipe : Recipe) :
    matchCount toLowerCase terms recipe ≠ 0 ↔
      recipe.ingredients.any (fun ingredient =>
        terms.any (fun userIng => includes (toLowerCase ingredient.name) userIng)) = true := by
  unfold matchCount
  rw [Ne, List.length_eq_zero, List.filter_eq_nil_iff, List.any_eq_true]
  push_neg
  rfl

theorem asciiLowerChar_idem (c : Char) : asciiLowerChar (asciiLowerChar c) = asciiLowerChar c := by
  unfold asciiLowerChar
  by_cases h : 65 ≤ c.toNat ∧ c.toNat ≤ 90
  · rw [if_pos h]
    have hv : (Char.ofNat (c.toNat + 32)).toNat = c.toNat + 32 := by
      have : (c.toNat + 32).isValidChar := by
        left; omega
      unfold Char.ofNat
      rw [dif_pos this]
      rfl
    rw [if_neg (by rw [hv]; omega)]
  · rw [if_neg h, if_neg h]

theorem asciiToLowerCase_idem (s : Str) :
    asciiToLowerCase (asciiToLowerCase s) = asciiToLowerCase s := by
  unfold asciiToLowerCase
  rw [List.map_map]
  apply List.map_congr_left
  intro c _
  exact asciiLowerChar_idem c

theorem parsePattern_of_no_syntaxChar (t : Str) (h : ∀ c ∈ t, isSyntaxChar c = false) :
    parsePattern t = .ok (t.map PatternAtom.literal) := by
  induction t with
  | nil => rfl
  | cons c cs ih =>
    have hc : isSyntaxChar c = false := h c (List.mem_cons_self _ _)
    have hcs := ih (fun d hd => h d (List.mem_cons_of_mem _ hd))
    have hb : c ≠ '\\' := by
      intro e; rw [e] at hc; exact absurd hc (by decide)
    have hdot : (c == '.') = false := by
      rw [beq_eq_false_iff_ne]
      intro e; rw [e] at hc; exact absurd hc (by decide)
    unfold parsePattern
    split
    · rename_i heq
      exact absurd heq (List.cons_ne_nil _ _)
    · rename_i heq
      exact absurd (List.cons.inj heq).1 hb
    · rename_i heq
      exact absurd (List.cons.inj heq).1 hb
    · rename_i heq
      obtain ⟨e₁, e₂⟩ := List.cons.inj heq
      subst e₁ e₂
      simp only [hdot, hc, hcs, List.map_cons]
      rfl

theorem newRegExp_of_no_syntaxChar (t : Str) (h : ∀ c ∈ t, isSyntaxChar c = false) :
    newRegExp t = .ok (matchesSomewhere (t.map PatternAtom.literal)) := by
  cases t with
  | nil => rfl
  | cons c cs =>
    have hc : isSyntaxChar c = false := h c (List.mem_cons_self _ _)
    have hq : (c == '*' || c == '+' || c == '?') = false := by
      simp only [isSyntaxChar, Bool.or_eq_false_iff] at hc
      simp only [Bool.or_eq_false_iff]
      exact ⟨⟨hc.1.1.1.1.1.1.1.1.1.2, hc.1.1.1.1.1.1.1.1.2⟩, hc.1.1.1.1.1.1.1.2⟩
    simp only [newRegExp, hq, parsePattern_of_no_syntaxChar (c :: cs) h]
    rfl

theorem matchesAt_literal (t name : Str) (ht : asciiToLowerCase t = t) :
    matchesAt (t.map PatternAtom.literal) name = startsWith (asciiToLowerCase name) t := by
  induction t generalizing name with
  | nil => cases name <;> rfl
  | cons c cs ih =>
    have hc : asciiLowerChar c = c := by
      have := congrArg List.head? ht
      simpa [asciiToLowerCase] using this
    have hcs : asciiToLowerCase cs = cs := by
      have := congrArg List.tail ht
      simpa [asciiToLowerCase] using this
    cases name with
    | nil => rfl
    | cons d ds =>
      simp only [List.map_cons, matchesAt, PatternAtom.matchesChar, asciiToLowerCase, startsWith,
        hc]
      rw [show List.map asciiLowerChar ds = asciiToLowerCase ds from rfl, ← ih ds hcs]
      congr 1
      rw [Bool.eq_iff_iff, beq_iff_eq, beq_iff_eq]
      exact eq_comm

theorem matchesSomewhere_literal (t name : Str) (ht : asciiToLowerCase t = t) :
    matchesSomewhere (t.map PatternAtom.literal) name = includes (asciiToLowerCase name) t := by
  induction name with
  | nil =>
    simp only [matchesSomewhere, asciiToLowerCase, List.map_nil, includes]
    exact matchesAt_literal t [] ht
  | cons d ds ih =>
    simp only [matchesSomewhere, asciiToLowerCase, List.map_cons, includes]
    rw [show List.map asciiLowerChar ds = asciiToLowerCase ds from rfl, ← ih]
    congr 1
    exact matchesAt_literal t (d :: ds) ht

theorem any_matchesSomewhere_literal (terms : List Str) (name : Str)
    (h : ∀ t ∈ terms, asciiToLowerCase t = t) :
    (terms.map (fun t => matchesSomewhere (t.map PatternAtom.literal))).any
        (fun test => test name) =
      terms.any (fun t => includes (asciiToLowerCase name) t) := by
  induction terms with
  | nil => rfl
  | cons t ts ih =>
    simp only [List.map_cons, List.any_cons]
    rw [ih (fun u hu => h u (List.mem_cons_of_mem _ hu)),
      matchesSomewhere_literal t name (h t (List.mem_cons_self _ _))]

theorem compileAll_of_no_syntaxChar (terms : List Str)
    (h : ∀ t ∈ terms, ∀ c ∈ t, isSyntaxChar c = false) :
    compileAll newRegExp terms =
      .ok (terms.map (fun t => matchesSomewhere (t.map PatternAtom.literal))) := by
  induction terms with
  | nil => rfl
  | cons t ts ih =>
    simp only [compileAll, newRegExp_of_no_syntaxChar t (h t (List.mem_cons_self _ _)),
      ih (fun u hu => h u (List.mem_cons_of_mem _ hu)), List.map_cons]

/-- For terms without syntax characters the expressions of line 104 test
containment, letter case of `A`-`Z` ignored, and the answer of the handler over
the pre-filtered candidates is its answer over the whole store with the entries
of `matchCount` 0 dropped. -/
theorem prefilter_refines_full_scan_of_plain_terms (store : List Recipe) (q : Str) (hq : q ≠ [])
    (hterms : ∀ t ∈ ingredientList asciiToLowerCase q, ∀ c ∈ t, isSyntaxChar c = false) :
    ∃ full, searchByIngredients asciiToLowerCase (fun _ => .ok store) (some q) = .ok full ∧
      searchByIngredients asciiToLowerCase (storeFind newRegExp store) (some q) =
        .ok (full.filter (fun e => decide (e.matchCount ≠ 0))) := by
  have hlow := lower_ingredientList asciiToLowerCase q asciiToLowerCase_idem
  have hfind : storeFind newRegExp store (ingredientList asciiToLowerCase q) =
      .ok (store.filter (fun recipe => recipe.ingredients.any (fun ingredient =>
        (ingredientList asciiToLowerCase q).any (fun t =>
          includes (asciiToLowerCase ingredient.name) t)))) := by
    simp only [storeFind, compileAll_of_no_syntaxChar _ hterms]
    congr 1
    apply List.filter_congr
    intro recipe _
    congr 1
    funext ingredient
    exact any_matchesSomewhere_literal _ ingredient.name hlow
  refine ⟨_, searchByIngredients_ok asciiToLowerCase _ q store hq rfl, ?_⟩
  rw [searchByIngredients_ok asciiToLowerCase (storeFind newRegExp store) q _ hq hfind]
  congr 1
  unfold rankRecipes
  rw [filter_pos_sort compareMatchCount (fun e => e.matchCount) compareMatchCount_le]
  congr 1
  unfold recipesWithMatchCount
  rw [List.filter_map]
  congr 1
  apply List.filter_congr
  intro recipe _
  rw [Bool.eq_iff_iff]
  simp only [Function.comp_apply, decide_eq_true_eq]
  rw [matchCount_ne_zero_iff]

/-- C10: evaluation of the handler where the pre-filter and the match count
part.  For the parameter `.` the expression of line 104 is `/./i`, which
matches the ingredient name `Tomatoes`, so the store yields candidate A and the
answer holds A with `matchCount` 0 (no ingredient name includes `.`), whereas
ranking the whole store and dropping the entries of `matchCount` 0 leaves
nothing.  For the parameter `rice,*` the constructor throws on `*` and the
answer is a 500, whereas the ranking of the whole store is answered with 200. -/
theorem prefilter_keeps_zero_match :
    storeFind newRegExp [candidateA] (ingredientList asciiToLowerCase ".".toList) =
      .ok [candidateA] ∧
    searchByIngredients asciiToLowerCase (storeFind newRegExp [candidateA]) (some ".".toList) =
      .ok [⟨candidateA, 0⟩] ∧
    searchByIngredients asciiToLowerCase (fun _ => .ok [candidateA]) (some ".".toList) =
      .ok [⟨candidateA, 0⟩] ∧
    ([⟨candidateA, 0⟩] : List RankedRecipe).filter (fun e => decide (e.matchCount ≠ 0)) = [] ∧
    (∃ message, searchByIngredients asciiToLowerCase (storeFind newRegExp [candidateA])
        (some "rice,*".toList) = .serverError message) ∧
    (searchByIngredients asciiToLowerCase (storeFind newRegExp [candidateA])
        (some "rice,*".toList)).status = 500 ∧
    (searchByIngredients asciiToLowerCase (fun _ => .ok [candidateA])
        (some "rice,*".toList)).status = 200 :=
  ⟨rfl, by decide, by decide, by decide, ⟨_, rfl⟩, by decide, by decide⟩

/-! ## Case-insensitive matching -/

theorem map_eq_of_forall₂ {α β : Type} (f : α → β) {l l' : List α}
    (h : List.Forall₂ (fun a b => f a = f b) l l') : l.map f = l'.map f := by
  induction h with
  | nil => rfl
  | cons hab _ ih => simp [hab, ih]

theorem length_filter_congr_names (toLowerCase : Str → Str) (terms : List Str)
    {l l' : List Ingredient}
    (h : List.Forall₂ (fun i i' : Ingredient => toLowerCase i.name = toLowerCase i'.name) l l') :
    (l'.filter (fun ingredient =>
        terms.any (fun userIng => includes (toLowerCase ingredient.name) userIng))).length =
      (l.filter (fun ingredient =>
        terms.any (fun userIng => includes (toLowerCase ingredient.name) userIng))).length := by
  induction h with
  | nil => rfl
  | cons hab _ ih =>
    simp only [List.filter_cons, hab]
    split_ifs
    · simp only [List.length_cons, ih]
    · exact ih

theorem matchCount_congr_names (toLowerCase : Str → Str) (terms : List Str)
    (recipe recipe' : Recipe)
    (h : List.Forall₂ (fun i i' : Ingredient => toLowerCase i.name = toLowerCase i'.name)
      recipe.ingredients recipe'.ingredients) :
    matchCount toLowerCase terms recipe' = matchCount toLowerCase terms recipe :=
  length_filter_congr_names toLowerCase terms h

theorem asciiLowerChar_toNat (c : Char) (h : 65 ≤ c.toNat ∧ c.toNat ≤ 90) :
    (asciiLowerChar c).toNat = c.toNat + 32 := by
  unfold asciiLowerChar
  rw [if_pos h]
  have hv : (c.toNat + 32).isValidChar := by
    left; omega
  unfold Char.ofNat
  rw [dif_pos hv]
  rfl

theorem isTrimChar_asciiLowerChar (c : Char) :
    isTrimChar (asciiLowerChar c) = isTrimChar c := by
  by_cases h : 65 ≤ c.toNat ∧ c.toNat ≤ 90
  · have h1 : isTrimChar c = false := by
      unfold isTrimChar
      simp only [Bool.or_eq_false_iff, Bool.and_eq_false_iff, decide_eq_false_iff_not,
        beq_eq_false_iff_ne]
      omega
    have h2 : isTrimChar (asciiLowerChar c) = false := by
      unfold isTrimChar
      rw [asciiLowerChar_toNat c h]
      simp only [Bool.or_eq_false_iff, Bool.and_eq_false_iff, decide_eq_false_iff_not,
        beq_eq_false_iff_ne]
      omega
    rw [h1, h2]
  · unfold asciiLowerChar
    rw [if_neg h]

theorem dropWhile_isTrimChar_asciiToLowerCase (s : Str) :
    (asciiToLowerCase s).dropWhile isTrimChar = asciiToLowerCase (s.dropWhile isTrimChar) := by
  induction s with
  | nil => rfl
  | cons c cs ih =>
    simp only [asciiToLowerCase, List.map_cons, List.dropWhile_cons, isTrimChar_asciiLowerChar]
    split_ifs
    · exact ih
    · rfl

theorem asciiToLowerCase_reverse (s : Str) :
    asciiToLowerCase s.reverse = (asciiToLowerCase s).reverse := by
  simp [asciiToLowerCase]

theorem asciiToLowerCase_trim (s : Str) :
    asciiToLowerCase (trim s) = trim (asciiToLowerCase s) := by
  unfold trim
  rw [asciiToLowerCase_reverse, ← dropWhile_isTrimChar_asciiToLowerCase,
    asciiToLowerCase_reverse, ← dropWhile_isTrimChar_asciiToLowerCase]

theorem asciiLowerChar_of_isCaseVariantChar (c d : Char) (h : isCaseVariantChar c d = true) :
    asciiLowerChar c = asciiLowerChar d := by
  unfold isCaseVariantChar at h
  simp only [Bool.or_eq_true, Bool.and_eq_true, decide_eq_true_eq, beq_iff_eq] at h
  rcases h with (h | ⟨hc, hd⟩) | ⟨hd, hc⟩
  · rw [h]
  · have hd' : ¬ (65 ≤ d.toNat ∧ d.toNat ≤ 90) := by omega
    unfold asciiLowerChar
    rw [if_pos hc, if_neg hd', ← hd, Char.ofNat_toNat]
  · have hc' : ¬ (65 ≤ c.toNat ∧ c.toNat ≤ 90) := by omega
    unfold asciiLowerChar
    rw [if_pos hd, if_neg hc', ← hc, Char.ofNat_toNat]

theorem asciiToLowerCase_of_isCaseVariant (s t : Str) (h : isCaseVariant s t = true) :
    asciiToLowerCase s = asciiToLowerCase t := by
  induction s generalizing t with
  | nil =>
    cases t with
    | nil => rfl
    | cons d ds => exact absurd h (by simp [isCaseVariant])
  | cons c cs ih =>
    cases t with
    | nil => exact absurd h (by simp [isCaseVariant])
    | cons d ds =>
      simp only [isCaseVariant, Bool.and_eq_true] at h
      simp only [asciiToLowerCase, List.map_cons]
      rw [asciiLowerChar_of_isCaseVariantChar c d h.1]
      exact congrArg _ (ih ds h.2)

/-- Entries with the same lower-cased form, entry by entry, give the same term
list, and ingredient names with the same lower-cased form give the same
`matchCount`. -/
theorem matchCount_congr_lowerCase (toLowerCase : Str → Str) (q q' : Str)
    (recipe recipe' : Recipe)
    (htrim : ∀ s, toLowerCase (trim s) = trim (toLowerCase s))
    (hterms : List.Forall₂ (fun s t => toLowerCase s = toLowerCase t)
      (split ',' q) (split ',' q'))
    (hnames : List.Forall₂ (fun i i' : Ingredient => toLowerCase i.name = toLowerCase i'.name)
      recipe.ingredients recipe'.ingredients) :
    ingredientList toLowerCase q' = ingredientList toLowerCase q ∧
    matchCount toLowerCase (ingredientList toLowerCase q') recipe' =
      matchCount toLowerCase (ingredientList toLowerCase q) recipe := by
  have hl : ingredientList toLowerCase q' = ingredientList toLowerCase q := by
    unfold ingredientList
    symm
    apply map_eq_of_forall₂
    refine List.Forall₂.imp ?_ hterms
    intro a b hab
    rw [htrim, htrim, hab]
  exact ⟨hl, by rw [hl]; exact matchCount_congr_names toLowerCase _ recipe recipe' hnames⟩

/-- C11, as far as it holds: matching ignores the case of the letters `A`-`Z`,
`a`-`z`.  When the entries of two parameters differ only in the case of these
letters, entry by entry and character by character, and the ingredient names of
two recipes do, ingredient by ingredient, then the parameters give the same term
list and both recipes get the same `matchCount`.  Of the lower-casing function
this uses that it sends two strings that differ only in the case of these
letters to the same string, and that it leaves the white space at both ends
alone. -/
theorem matchCount_ascii_case_insensitive (toLowerCase : Str → Str) (q q' : Str)
    (recipe recipe' : Recipe)
    (htrim : ∀ s, toLowerCase (trim s) = trim (toLowerCase s))
    (hcase : ∀ s t, isCaseVariant s t = true → toLowerCase s = toLowerCase t)
    (hterms : List.Forall₂ (fun s t => isCaseVariant s t = true) (split ',' q) (split ',' q'))
    (hnames : List.Forall₂ (fun i i' : Ingredient => isCaseVariant i.name i'.name = true)
      recipe.ingredients recipe'.ingredients) :
    ingredientList toLowerCase q' = ingredientList toLowerCase q ∧
    matchCount toLowerCase (ingredientList toLowerCase q') recipe' =
      matchCount toLowerCase (ingredientList toLowerCase q) recipe :=
  matchCount_congr_lowerCase toLowerCase q q' recipe recipe' htrim
    (List.Forall₂.imp (fun s t h => hcase s t h) hterms)
    (List.Forall₂.imp (fun i i' h => hcase i.name i'.name h) hnames)

/-- Witness of C11: `TOMATO, Cheese` against `tomato, cheese`, and candidate A
with its ingredient names in upper case. -/
theorem matchCount_ascii_case_insensitive_witness :
    ((∀ s, asciiToLowerCase (trim s) = trim (asciiToLowerCase s)) ∧
      (∀ s t, isCaseVariant s t = true → asciiToLowerCase s = asciiToLowerCase t) ∧
      List.Forall₂ (fun s t => isCaseVariant s t = true) (split ',' "tomato, cheese".toList)
        (split ',' "TOMATO, Cheese".toList) ∧
      List.Forall₂ (fun i i' : Ingredient => isCaseVariant i.name i'.name = true)
        candidateA.ingredients
        (mkRecipe "A" [("TOMATOES", "2"), ("BASIL", "1 bunch")]).ingredients) ∧
    (ingredientList asciiToLowerCase "TOMATO, Cheese".toList =
        ingredientList asciiToLowerCase "tomato, cheese".toList ∧
      matchCount asciiToLowerCase (ingredientList asciiToLowerCase "TOMATO, Cheese".toList)
          (mkRecipe "A" [("TOMATOES", "2"), ("BASIL", "1 bunch")]) =
        matchCount asciiToLowerCase (ingredientList asciiToLowerCase "tomato, cheese".toList)
          candidateA) ∧
    matchCount asciiToLowerCase (ingredientList asciiToLowerCase "TOMATO, Cheese".toList)
      (mkRecipe "A" [("TOMATOES", "2"), ("BASIL", "1 bunch")]) = 1 :=
  have h1 : List.Forall₂ (fun s t => isCaseVariant s t = true)
      (split ',' "tomato, cheese".toList) (split ',' "TOMATO, Cheese".toList) :=
    List.Forall₂.cons (by decide) (List.Forall₂.cons (by decide) List.Forall₂.nil)
  have h2 : List.Forall₂ (fun i i' : Ingredient => isCaseVariant i.name i'.name = true)
      candidateA.ingredients
      (mkRecipe "A" [("TOMATOES", "2"), ("BASIL", "1 bunch")]).ingredients :=
    List.Forall₂.cons (by decide) (List.Forall₂.cons (by decide) List.Forall₂.nil)
  ⟨⟨asciiToLowerCase_trim, asciiToLowerCase_of_isCaseVariant, h1, h2⟩,
    matchCount_ascii_case_insensitive asciiToLowerCase "tomato, cheese".toList
      "TOMATO, Cheese".toList candidateA
      (mkRecipe "A" [("TOMATOES", "2"), ("BASIL", "1 bunch")]) asciiToLowerCase_trim
      asciiToLowerCase_of_isCaseVariant h1 h2,
    by decide⟩

/-- Counterexample to C11: a change of letter case that changes `matchCount`.
The term `weiß` is contained in the lower-cased form `weißwein` of the ingredient
name `Weißwein`, which counts as a match.  The upper-case form of that name is
`WEISSWEIN`; its lower-cased form `weisswein` does not contain `weiß`, and the
count is 0.  (On these strings `toLowerCase` changes the letters `A`-`Z` only:
`ß` is a small letter.) -/
theorem matchCount_changes_with_case :
    toUpperCase "Weißwein".toList = "WEISSWEIN".toList ∧
    asciiToLowerCase "Weißwein".toList = "weißwein".toList ∧
    asciiToLowerCase "WEISSWEIN".toList = "weisswein".toList ∧
    ingredientList asciiToLowerCase "weiß".toList = ["weiß".toList] ∧
    matchCount asciiToLowerCase (ingredientList asciiToLowerCase "weiß".toList)
      (mkRecipe "W" [("Weißwein", "200 ml")]) = 1 ∧
    matchCount asciiToLowerCase (ingredientList asciiToLowerCase "weiß".toList)
      (mkRecipe "W" [("WEISSWEIN", "200 ml")]) = 0 := by
  decide

/-! ## Entries of the answer and their candidates -/

theorem mem_rankedWithPosition (toLowerCase : Str → Str) (terms : List Str)
    (recipes : List Recipe) (p : Nat × RankedRecipe)
    (hp : p ∈ rankedWithPosition toLowerCase terms recipes) :
    recipes[p.1]? = some p.2.recipe ∧
      p.2.matchCount = matchCount toLowerCase terms p.2.recipe := by
  unfold rankedWithPosition at hp
  rw [mem_sort, List.mem_enum_iff_getElem?] at hp
  simp only [recipesWithMatchCount, List.getElem?_map, Option.map_eq_some'] at hp
  obtain ⟨r, hr, he⟩ := hp
  rw [← he]
  exact ⟨hr, rfl⟩

theorem rankedWithPosition_perm (toLowerCase : Str → Str) (terms : List Str)
    (recipes : List Recipe) :
    ((rankedWithPosition toLowerCase terms recipes).map (fun p => (p.1, p.2.recipe))).Perm
      recipes.enum := by
  unfold rankedWithPosition
  have h := (sort_perm (fun a b : Nat × RankedRecipe => compareMatchCount a.2 b.2)
    (recipesWithMatchCount toLowerCase terms recipes).enum).map (fun p => (p.1, p.2.recipe))
  refine h.trans ?_
  have e : (recipesWithMatchCount toLowerCase terms recipes).enum.map
      (fun p => (p.1, p.2.recipe)) = recipes.enum := by
    unfold recipesWithMatchCount
    rw [List.enum_map, List.map_map]
    conv_rhs => rw [← List.map_id recipes.enum]
    apply List.map_congr_left
    intro a _
    rfl
  rw [e]

/-- C12: when the store query succeeds, every entry of the answer is its
candidate recipe, all fields unchanged (identifier, ingredients with their names
and quantities in the same order, and the rest), with `matchCount` as the only
addition.  With the entries labelled by the position of their candidate in the
input: the entry labelled `i` holds the candidate at position `i`, each
position occurs exactly once, and dropping the labels gives the answer.  The
candidates themselves are only read. -/
theorem searchByIngredients_entries_unchanged (toLowerCase : Str → Str)
    (find : List Str → Except String (List Recipe)) (q : Str) (candidates : List Recipe)
    (hq : q ≠ []) (hfind : find (ingredientList toLowerCase q) = .ok candidates) :
    ∃ out, searchByIngredients toLowerCase find (some q) = .ok out ∧
      out = (rankedWithPosition toLowerCase (ingredientList toLowerCase q) candidates).map
        Prod.snd ∧
      (∀ p ∈ rankedWithPosition toLowerCase (ingredientList toLowerCase q) candidates,
        ∃ r, candidates[p.1]? = some r ∧ p.2.recipe = r ∧ p.2.recipe.id = r.id ∧
          p.2.recipe.ingredients = r.ingredients ∧
          p.2.recipe.ingredients.map (fun i => i.name) = r.ingredients.map (fun i => i.name) ∧
          p.2.recipe.ingredients.map (fun i => i.quantity) =
            r.ingredients.map (fun i => i.quantity)) ∧
      ((rankedWithPosition toLowerCase (ingredientList toLowerCase q) candidates).map
        (fun p => (p.1, p.2.recipe))).Perm candidates.enum := by
  refine ⟨_, searchByIngredients_ok toLowerCase find q candidates hq hfind,
    (rankedWithPosition_map_snd toLowerCase _ candidates).symm, ?_,
    rankedWithPosition_perm toLowerCase _ candidates⟩
  intro p hp
  have h := mem_rankedWithPosition toLowerCase _ candidates p hp
  exact ⟨p.2.recipe, h.1, rfl, rfl, rfl, rfl, rfl⟩

/-- Witness of C12 on scenario 1. -/
theorem searchByIngredients_entries_unchanged_witness :
    ("Tomato,cheese".toList ≠ [] ∧
      (fun _ => Except.ok [candidateA, candidateB] : List Str → Except String (List Recipe))
        (ingredientList asciiToLowerCase "Tomato,cheese".toList) =
        .ok [candidateA, candidateB]) ∧
    ∃ out, searchByIngredients asciiToLowerCase (fun _ => .ok [candidateA, candidateB])
        (some "Tomato,cheese".toList) = .ok out ∧
      out = (rankedWithPosition asciiToLowerCase
        (ingredientList asciiToLowerCase "Tomato,cheese".toList)
        [candidateA, candidateB]).map Prod.snd ∧
      (∀ p ∈ rankedWithPosition asciiToLowerCase
          (ingredientList asciiToLowerCase "Tomato,cheese".toList) [candidateA, candidateB],
        ∃ r, [candidateA, candidateB][p.1]? = some r ∧ p.2.recipe = r ∧ p.2.recipe.id = r.id ∧
          p.2.recipe.ingredients = r.ingredients ∧
          p.2.recipe.ingredients.map (fun i => i.name) = r.ingredients.map (fun i => i.name) ∧
          p.2.recipe.ingredients.map (fun i => i.quantity) =
            r.ingredients.map (fun i => i.quantity)) ∧
      ((rankedWithPosition asciiToLowerCase
          (ingredientList asciiToLowerCase "Tomato,cheese".toList)
          [candidateA, candidateB]).map (fun p => (p.1, p.2.recipe))).Perm
        [candidateA, candidateB].enum :=
  ⟨⟨by decide, rfl⟩,
    searchByIngredients_entries_unchanged asciiToLowerCase _ "Tomato,cheese".toList
      [candidateA, candidateB] (by decide) rfl⟩

/-! ## Bounds of the match count -/

theorem split_append_sep (sep : Char) (a b : Str) :
    split sep (a ++ sep :: b) = split sep a ++ split sep b := by
  induction a with
  | nil => simp [split]
  | cons c cs ih =>
    by_cases hc : c = sep
    · simp [split, hc, ih]
    · simp only [List.cons_append, split, if_neg hc]
      have ih' : split sep (cs.append (sep :: b)) = split sep cs ++ split sep b := ih
      rw [ih']
      cases hs : split sep cs with
      | nil => exact absurd hs (split_ne_nil sep cs)
      | cons h t => simp

theorem split_of_not_mem (sep : Char) (s : Str) (h : sep ∉ s) : split sep s = [s] := by
  induction s with
  | nil => rfl
  | cons c cs ih =>
    have hc : ¬ c = sep := fun e => h (by rw [e]; exact List.mem_cons_self _ _)
    have hcs : sep ∉ cs := fun e => h (List.mem_cons_of_mem _ e)
    simp only [split, if_neg hc, ih hcs]

theorem not_mem_of_mem_split (sep : Char) (s e : Str) (he : e ∈ split sep s) : sep ∉ e := by
  induction s generalizing e with
  | nil =>
    simp only [split, List.mem_singleton] at he
    rw [he]; exact List.not_mem_nil _
  | cons c cs ih =>
    by_cases hc : c = sep
    · simp only [split, if_pos hc, List.mem_cons] at he
      rcases he with rfl | he
      · exact List.not_mem_nil _
      · exact ih e he
    · simp only [split, if_neg hc] at he
      cases hs : split sep cs with
      | nil => exact absurd hs (split_ne_nil sep cs)
      | cons h t =>
        rw [hs] at he
        simp only [List.mem_cons] at he
        rcases he with rfl | he
        · intro hmem
          rcases List.mem_cons.mp hmem with e | hmem
          · exact hc e.symm
          · exact ih h (by rw [hs]; exact List.mem_cons_self _ _) hmem
        · exact ih e (by rw [hs]; exact List.mem_cons_of_mem _ he)

theorem matchCount_congr_terms (toLowerCase : Str → Str) (terms terms' : List Str)
    (h : ∀ t, t ∈ terms' ↔ t ∈ terms) (recipe : Recipe) :
    matchCount toLowerCase terms' recipe = matchCount toLowerCase terms recipe := by
  unfold matchCount
  congr 1
  apply List.filter_congr
  intro i _
  rw [Bool.eq_iff_iff, List.any_eq_true, List.any_eq_true]
  constructor
  · rintro ⟨t, ht, hi⟩; exact ⟨t, (h t).mp ht, hi⟩
  · rintro ⟨t, ht, hi⟩; exact ⟨t, (h t).mpr ht, hi⟩

/-- C13: the `matchCount` of a recipe lies between 0 and the number of its
ingredients, and repeating a pantry term does not change it: neither repeating
a term of the term list (in front or at the end), nor repeating an entry of the
comma-separated parameter; more generally `matchCount` depends only on which
terms occur in the list. -/
theorem matchCount_bounds (toLowerCase : Str → Str) (terms : List Str) (recipe : Recipe) :
    0 ≤ matchCount toLowerCase terms recipe ∧
    matchCount toLowerCase terms recipe ≤ recipe.ingredients.length ∧
    (∀ t ∈ terms,
      matchCount toLowerCase (t :: terms) recipe = matchCount toLowerCase terms recipe ∧
      matchCount toLowerCase (terms ++ [t]) recipe = matchCount toLowerCase terms recipe) ∧
    (∀ terms' : List Str, (∀ t, t ∈ terms' ↔ t ∈ terms) →
      matchCount toLowerCase terms' recipe = matchCount toLowerCase terms recipe) ∧
    (∀ q e : Str, e ∈ split ',' q →
      matchCount toLowerCase (ingredientList toLowerCase (q ++ ',' :: e)) recipe =
        matchCount toLowerCase (ingredientList toLowerCase q) recipe) := by
  refine ⟨Nat.zero_le _, List.length_filter_le _ _, ?_, ?_, ?_⟩
  · intro t ht
    constructor
    · apply matchCount_congr_terms
      intro u
      simp only [List.mem_cons]
      constructor
      · rintro (rfl | h)
        · exact ht
        · exact h
      · intro h; exact Or.inr h
    · apply matchCount_congr_terms
      intro u
      simp only [List.mem_append, List.mem_singleton]
      constructor
      · rintro (h | rfl)
        · exact h
        · exact ht
      · intro h; exact Or.inl h
  · intro terms' h
    exact matchCount_congr_terms toLowerCase terms terms' h recipe
  · intro q e he
    apply matchCount_congr_terms
    intro u
    unfold ingredientList
    rw [split_append_sep, split_of_not_mem ',' e (not_mem_of_mem_split ',' q e he),
      List.map_append, List.mem_append]
    constructor
    · rintro (h | h)
      · exact h
      · simp only [List.map_cons, List.map_nil, List.mem_singleton] at h
        rw [h]
        exact List.mem_map_of_mem _ he
    · intro h; exact Or.inl h

/-- Witness of C13: with `tomato` repeated in front or at the end of the term
list candidate B keeps its `matchCount`. -/
theorem matchCount_bounds_witness :
    "tomato".toList ∈ ["tomato".toList, "cheese".toList] ∧
    matchCount asciiToLowerCase ("tomato".toList :: ["tomato".toList, "cheese".toList])
        candidateB =
      matchCount asciiToLowerCase ["tomato".toList, "cheese".toList] candidateB ∧
    matchCount asciiToLowerCase (["tomato".toList, "cheese".toList] ++ ["tomato".toList])
        candidateB =
      matchCount asciiToLowerCase ["tomato".toList, "cheese".toList] candidateB :=
  ⟨by decide,
    (matchCount_bounds asciiToLowerCase ["tomato".toList, "cheese".toList] candidateB).2.2.1
      "tomato".toList (by decide)⟩

/-! ## The guard of line 96 -/

theorem searchByIngredientsTraced_snd (toLowerCase : Str → Str)
    (find : List Str → Except String (List Recipe)) (ingredients : Option Str) :
    (searchByIngredientsTraced toLowerCase find ingredients).2 =
      searchByIngredients toLowerCase find ingredients := by
  cases ingredients with
  | none => rfl
  | some q =>
    cases q with
    | nil => rfl
    | cons c cs =>
      simp only [searchByIngredientsTraced, searchByIngredients]
      cases find (ingredientList toLowerCase (c :: cs)) <;> rfl

/-- C14: `searchByIngredients` answers with status 400 exactly when the
`ingredients` parameter is absent or the empty string; the message is then
`Ingredients parameter is required` (and no other answer is a 400).  In that
case the answer is sent before any work: no store query and no ranking, and the
answer does not depend on the store.  For every other parameter the first work
done is the store query. -/
theorem searchByIngredients_badRequest_iff (toLowerCase : Str → Str)
    (find : List Str → Except String (List Recipe)) (ingredients : Option Str) :
    (searchByIngredients toLowerCase find ingredients =
        .badRequest "Ingredients parameter is required" ↔
      (ingredients = none ∨ ingredients = some [])) ∧
    ((searchByIngredients toLowerCase find ingredients).status = 400 ↔
      searchByIngredients toLowerCase find ingredients =
        .badRequest "Ingredients parameter is required") ∧
    (searchByIngredientsTraced toLowerCase find ingredients).2 =
      searchByIngredients toLowerCase find ingredients ∧
    ((ingredients = none ∨ ingredients = some []) →
      (searchByIngredientsTraced toLowerCase find ingredients).1 = [] ∧
      ∀ find' : List Str → Except String (List Recipe),
        searchByIngredients toLowerCase find' ingredients =
          searchByIngredients toLowerCase find ingredients) ∧
    (¬ (ingredients = none ∨ ingredients = some []) →
      ∃ q, ingredients = some q ∧
        (searchByIngredientsTraced toLowerCase find ingredients).1.head? =
          some (.storeQuery (ingredientList toLowerCase q))) := by
  refine ⟨?_, ?_, searchByIngredientsTraced_snd toLowerCase find ingredients, ?_, ?_⟩
  · cases ingredients with
    | none => simp [searchByIngredients]
    | some q =>
      cases q with
      | nil => simp [searchByIngredients]
      | cons c cs =>
        simp only [searchByIngredients]
        cases find (ingredientList toLowerCase (c :: cs)) <;> simp
  · cases ingredients with
    | none => simp [searchByIngredients, Response.status]
    | some q =>
      cases q with
      | nil => simp [searchByIngredients, Response.status]
      | cons c cs =>
        simp only [searchByIngredients]
        cases find (ingredientList toLowerCase (c :: cs)) <;> simp [Response.status]
  · rintro (rfl | rfl)
    · exact ⟨rfl, fun _ => rfl⟩
    · exact ⟨rfl, fun _ => rfl⟩
  · intro h
    cases ingredients with
    | none => exact absurd (Or.inl rfl) h
    | some q =>
      cases q with
      | nil => exact absurd (Or.inr rfl) h
      | cons c cs =>
        refine ⟨c :: cs, rfl, ?_⟩
        simp only [searchByIngredientsTraced]
        cases find (ingredientList toLowerCase (c :: cs)) <;> rfl

/-- Witness of C14: the empty parameter against a store that holds candidate A. -/
theorem searchByIngredients_badRequest_iff_witness :
    ((some [] : Option Str) = none ∨ (some [] : Option Str) = some []) ∧
    ((searchByIngredientsTraced asciiToLowerCase (storeFind newRegExp [candidateA])
        (some [])).1 = [] ∧
      ∀ find' : List Str → Except String (List Recipe),
        searchByIngredients asciiToLowerCase find' (some []) =
          searchByIngredients asciiToLowerCase (storeFind newRegExp [candidateA])
            (some [])) :=
  ⟨Or.inr rfl,
    (searchByIngredients_badRequest_iff asciiToLowerCase (storeFind newRegExp [candidateA])
      (some [])).2.2.2.1 (Or.inr rfl)⟩

/-! ## From the client's term list to the handler's term list -/

theorem split_join (sep : Char) (terms : List Str) (hne : terms ≠ [])
    (h : ∀ t ∈ terms, sep ∉ t) : split sep (join sep terms) = terms := by
  induction terms with
  | nil => exact absurd rfl hne
  | cons s rest ih =>
    cases rest with
    | nil => exact split_of_not_mem sep s (h s (List.mem_cons_self _ _))
    | cons t rest' =>
      have hs := split_of_not_mem sep s (h s (List.mem_cons_self _ _))
      have hr := ih (List.cons_ne_nil _ _) (fun u hu => h u (List.mem_cons_of_mem _ hu))
      show split sep (s ++ sep :: join sep (t :: rest')) = _
      rw [split_append_sep, hs, hr]
      rfl

theorem join_ne_nil (sep : Char) (t : Str) (ts : List Str) (ht : t ≠ []) :
    join sep (t :: ts) ≠ [] := by
  cases t with
  | nil => exact absurd rfl ht
  | cons c cs =>
    cases ts with
    | nil => simp [join]
    | cons u us => simp [join]

/-- C15: for a non-empty list of pantry terms that are trimmed, non-blank and
free of commas, `searchRecipes` sends the terms joined with `,`, and the handler
recovers from that parameter, by splitting, trimming and lower-casing, as many
terms in the same order, each the lower-cased original term; the store is then
queried with exactly these terms. -/
theorem searchRecipes_ingredientList (toLowerCase : Str → Str) (terms : List Str)
    (hne : terms ≠ []) (hterms : ∀ t ∈ terms, trim t = t ∧ t ≠ [] ∧ ',' ∉ t) :
    ∃ q, searchRecipes terms = some q ∧ q = join ',' terms ∧ q ≠ [] ∧
      split ',' q = terms ∧
      ingredientList toLowerCase q = terms.map toLowerCase ∧
      (ingredientList toLowerCase q).length = terms.length ∧
      (∀ n (hn : n < terms.length),
        (ingredientList toLowerCase q)[n]? = some (toLowerCase terms[n])) ∧
      (∀ find : List Str → Except String (List Recipe),
        (searchByIngredientsTraced toLowerCase find (some q)).1.head? =
          some (.storeQuery (terms.map toLowerCase))) := by
  cases terms with
  | nil => exact absurd rfl hne
  | cons t ts =>
    have hsplit : split ',' (join ',' (t :: ts)) = t :: ts :=
      split_join ',' (t :: ts) hne (fun u hu => (hterms u hu).2.2)
    have hlist : ingredientList toLowerCase (join ',' (t :: ts)) = (t :: ts).map toLowerCase := by
      unfold ingredientList
      rw [hsplit]
      apply List.map_congr_left
      intro u hu
      rw [(hterms u hu).1]
    have hq : join ',' (t :: ts) ≠ [] :=
      join_ne_nil ',' t ts (hterms t (List.mem_cons_self _ _)).2.1
    refine ⟨join ',' (t :: ts), rfl, rfl, hq, hsplit, hlist, ?_, ?_, ?_⟩
    · rw [hlist, List.length_map]
    · intro n hn
      rw [hlist, List.getElem?_map, List.getElem?_eq_getElem hn]
      rfl
    · intro find
      cases hj : join ',' (t :: ts) with
      | nil => exact absurd hj hq
      | cons c cs =>
        rw [hj] at hlist
        simp only [searchByIngredientsTraced, hlist]
        cases find ((t :: ts).map toLowerCase) <;> rfl

/-- Witness of C15: the terms `Tomato` and `olive oil`. -/
theorem searchRecipes_ingredientList_witness :
    (["Tomato".toList, "olive oil".toList] ≠ [] ∧
      ∀ t ∈ ["Tomato".toList, "olive oil".toList], trim t = t ∧ t ≠ [] ∧ ',' ∉ t) ∧
    ∃ q, searchRecipes ["Tomato".toList, "olive oil".toList] = some q ∧
      q = join ',' ["Tomato".toList, "olive oil".toList] ∧ q ≠ [] ∧
      split ',' q = ["Tomato".toList, "olive oil".toList] ∧
      ingredientList asciiToLowerCase q =
        ["Tomato".toList, "olive oil".toList].map asciiToLowerCase ∧
      (ingredientList asciiToLowerCase q).length =
        ["Tomato".toList, "olive oil".toList].length ∧
      (∀ n (hn : n < ["Tomato".toList, "olive oil".toList].length),
        (ingredientList asciiToLowerCase q)[n]? =
          some (asciiToLowerCase ["Tomato".toList, "olive oil".toList][n])) ∧
      (∀ find : List Str → Except String (List Recipe),
        (searchByIngredientsTraced asciiToLowerCase find (some q)).1.head? =
          some (.storeQuery (["Tomato".toList, "olive oil".toList].map asciiToLowerCase))) :=
  ⟨⟨by decide, by decide⟩,
    searchRecipes_ingredientList asciiToLowerCase ["Tomato".toList, "olive oil".toList]
      (by decide) (by decide)⟩

/-! ## `IngredientInput`: the ingredient list stays well formed -/

theorem dropWhile_head_not (p : Char → Bool) (l : Str) :
    ∀ x ∈ (l.dropWhile p).head?, p x = false := by
  induction l with
  | nil => simp
  | cons c cs ih =>
    rw [List.dropWhile_cons]
    split_ifs with h
    · exact ih
    · intro x hx
      simp only [List.head?_cons, Option.mem_def, Option.some.injEq] at hx
      rw [← hx]
      simpa using h

theorem dropWhile_eq_self_of_head (p : Char → Bool) (l : Str)
    (h : ∀ x ∈ l.head?, p x = false) : l.dropWhile p = l := by
  cases l with
  | nil => rfl
  | cons c cs =>
    have hc : p c = false := h c (by simp)
    simp [List.dropWhile_cons, hc]

theorem head?_eq_of_initial {b a : Str} (h : b <+: a) (hb : b ≠ []) : b.head? = a.head? := by
  obtain ⟨t, rfl⟩ := h
  cases b with
  | nil => exact absurd rfl hb
  | cons x xs => rfl

theorem trim_eq_rdropWhile (s : Str) :
    trim s = List.rdropWhile isTrimChar (s.dropWhile isTrimChar) := rfl

theorem trim_trim (s : Str) : trim (trim s) = trim s := by
  have hb : (trim s).dropWhile isTrimChar = trim s := by
    apply dropWhile_eq_self_of_head
    by_cases hnil : trim s = []
    · rw [hnil]; simp
    · have hpre : trim s <+: s.dropWhile isTrimChar := by
        rw [trim_eq_rdropWhile]; exact List.rdropWhile_prefix _ _
      rw [head?_eq_of_initial hpre hnil]
      exact dropWhile_head_not isTrimChar s
  rw [trim_eq_rdropWhile (trim s), hb, trim_eq_rdropWhile s, List.rdropWhile_idempotent]

theorem mem_of_mem_removeIngredient (s : IngredientInputState) (index : Nat) (i : Ingredient)
    (h : i ∈ (s.removeIngredient index).ingredients) : i ∈ s.ingredients := by
  simp only [IngredientInputState.removeIngredient, List.mem_map, List.mem_filter] at h
  obtain ⟨p, ⟨hp, _⟩, rfl⟩ := h
  rw [List.mem_enum_iff_getElem?] at hp
  exact List.getElem?_mem hp

theorem wellFormed_step (s : IngredientInputState) (a : IngredientInputAction)
    (h : ∀ i ∈ s.ingredients, i.WellFormed) : ∀ i ∈ (s.step a).ingredients, i.WellFormed := by
  cases a with
  | setIngredientName text => exact h
  | setQuantity text => exact h
  | addIngredient =>
    simp only [IngredientInputState.step, IngredientInputState.addIngredient]
    split_ifs with hc
    · intro i hi
      simp only [List.mem_append, List.mem_singleton] at hi
      rcases hi with hi | rfl
      · exact h i hi
      · exact ⟨hc.1, hc.2, trim_trim _, trim_trim _⟩
    · exact h
  | removeIngredient index =>
    intro i hi
    exact h i (mem_of_mem_removeIngredient s index i hi)

theorem wellFormed_foldl (actions : List IngredientInputAction) (s : IngredientInputState)
    (h : ∀ i ∈ s.ingredients, i.WellFormed) :
    ∀ i ∈ (actions.foldl IngredientInputState.step s).ingredients, i.WellFormed := by
  induction actions generalizing s with
  | nil => exact h
  | cons a as ih => exact ih (s.step a) (wellFormed_step s a h)

/-- C16: starting from the empty ingredient list, after any sequence of
actions on `IngredientInput` (typing into the two fields, `addIngredient`,
`removeIngredient`) every ingredient of the list has a non-empty, already
trimmed name and a non-empty, already trimmed quantity; and `addIngredient`
with a blank name field or a blank quantity field changes nothing, in
particular not the list. -/
theorem ingredientInput_wellFormed (actions : List IngredientInputAction) :
    (∀ i ∈ (IngredientInputState.run actions).ingredients,
      i.name ≠ [] ∧ i.quantity ≠ [] ∧ trim i.name = i.name ∧ trim i.quantity = i.quantity) ∧
    (∀ s : IngredientInputState, trim s.ingredientName = [] ∨ trim s.quantity = [] →
      s.addIngredient = s ∧ s.addIngredient.ingredients = s.ingredients) := by
  constructor
  · exact wellFormed_foldl actions IngredientInputState.initial (by
      intro i hi
      simp [IngredientInputState.initial] at hi)
  · intro s hs
    have : s.addIngredient = s := by
      unfold IngredientInputState.addIngredient
      rw [if_neg]
      rintro ⟨h1, h2⟩
      rcases hs with h | h
      · exact h1 h
      · exact h2 h
    exact ⟨this, by rw [this]⟩

/-- Witness of C16: with a blank name field `addIngredient` changes nothing. -/
theorem ingredientInput_wellFormed_witness :
    (trim " ".toList = [] ∨ trim "2 cups".toList = []) ∧
    ((⟨[⟨"Salt".toList, "1 tsp".toList⟩], " ".toList, "2 cups".toList⟩ :
        IngredientInputState).addIngredient =
      ⟨[⟨"Salt".toList, "1 tsp".toList⟩], " ".toList, "2 cups".toList⟩ ∧
    (⟨[⟨"Salt".toList, "1 tsp".toList⟩], " ".toList, "2 cups".toList⟩ :
        IngredientInputState).addIngredient.ingredients = [⟨"Salt".toList, "1 tsp".toList⟩]) :=
  ⟨Or.inl (by decide),
    (ingredientInput_wellFormed []).2
      ⟨[⟨"Salt".toList, "1 tsp".toList⟩], " ".toList, "2 cups".toList⟩ (Or.inl (by decide))⟩

/-! ## The payload carries `matchCount` -/

/-- C17 fails: for the same candidate list `[A]` the parameters `tomato` and
`xyz` give answers with the same recipe in the same place, and the answers
differ: the object sent holds `matchCount` 1 in one and 0 in the other. -/
theorem payload_carries_matchCount :
    searchByIngredients asciiToLowerCase (fun _ => .ok [candidateA]) (some "tomato".toList) =
      .ok [⟨candidateA, 1⟩] ∧
    searchByIngredients asciiToLowerCase (fun _ => .ok [candidateA]) (some "xyz".toList) =
      .ok [⟨candidateA, 0⟩] ∧
    searchByIngredients asciiToLowerCase (fun _ => .ok [candidateA]) (some "tomato".toList) ≠
      searchByIngredients asciiToLowerCase (fun _ => .ok [candidateA]) (some "xyz".toList) := by
  decide

/-- C17, as the code has it: `matchCount` is the sort key and is part of the
payload.  When the store query succeeds, the array sent is the sorted array of
the objects `{ ...recipe, matchCount }` itself, and the `matchCount` of every
object sent is the match count of the recipe it holds. -/
theorem searchByIngredients_payload (toLowerCase : Str → Str)
    (find : List Str → Except String (List Recipe)) (q : Str) (candidates : List Recipe)
    (hq : q ≠ []) (hfind : find (ingredientList toLowerCase q) = .ok candidates) :
    ∃ out, searchByIngredients toLowerCase find (some q) = .ok out ∧
      out = sort compareMatchCount
        (recipesWithMatchCount toLowerCase (ingredientList toLowerCase q) candidates) ∧
      out.map (fun e => e.matchCount) =
        out.map (fun e => matchCount toLowerCase (ingredientList toLowerCase q) e.recipe) := by
  refine ⟨_, searchByIngredients_ok toLowerCase find q candidates hq hfind, rfl, ?_⟩
  apply List.map_congr_left
  intro e he
  exact ((mem_rankRecipes toLowerCase _ candidates e).mp he).2

/-- Witness of the amended C17 on scenario 1. -/
theorem searchByIngredients_payload_witness :
    ("Tomato,cheese".toList ≠ [] ∧
      (fun _ => Except.ok [candidateA, candidateB] : List Str → Except String (List Recipe))
        (ingredientList asciiToLowerCase "Tomato,cheese".toList) =
        .ok [candidateA, candidateB]) ∧
    ∃ out, searchByIngredients asciiToLowerCase (fun _ => .ok [candidateA, candidateB])
        (some "Tomato,cheese".toList) = .ok out ∧
      out = sort compareMatchCount
        (recipesWithMatchCount asciiToLowerCase
          (ingredientList asciiToLowerCase "Tomato,cheese".toList) [candidateA, candidateB]) ∧
      out.map (fun e => e.matchCount) =
        out.map (fun e => matchCount asciiToLowerCase
          (ingredientList asciiToLowerCase "Tomato,cheese".toList) e.recipe) :=
  ⟨⟨by decide, rfl⟩,
    searchByIngredients_payload asciiToLowerCase _ "Tomato,cheese".toList
      [candidateA, candidateB] (by decide) rfl⟩

/-! ## Determinism -/

theorem sorted_stable_unique {α : Type} (key : α → Nat) (l₁ l₂ : List α)
    (h₁ : l₁.Pairwise (fun a b => key b ≤ key a))
    (h₂ : l₂.Pairwise (fun a b => key b ≤ key a))
    (hf : ∀ k, l₁.filter (fun a => decide (key a = k)) =
      l₂.filter (fun a => decide (key a = k))) : l₁ = l₂ := by
  induction l₁ generalizing l₂ with
  | nil =>
    cases l₂ with
    | nil => rfl
    | cons y ys =>
      have := hf (key y)
      simp [List.filter_cons] at this
  | cons x xs ih =>
    cases l₂ with
    | nil =>
      have := hf (key x)
      simp [List.filter_cons] at this
    | cons y ys =>
      rw [List.pairwise_cons] at h₁ h₂
      have hx : x ∈ (y :: ys).filter (fun a => decide (key a = key x)) := by
        rw [← hf (key x)]; simp [List.filter_cons]
      have hy : y ∈ (x :: xs).filter (fun a => decide (key a = key y)) := by
        rw [hf (key y)]; simp [List.filter_cons]
      have hxle : key x ≤ key y := by
        rcases List.mem_cons.mp (List.mem_filter.mp hx).1 with e | e
        · rw [e]
        · exact h₂.1 x e
      have hyle : key y ≤ key x := by
        rcases List.mem_cons.mp (List.mem_filter.mp hy).1 with e | e
        · rw [e]
        · exact h₁.1 y e
      have hk : key y = key x := le_antisymm hyle hxle
      have h0 := hf (key x)
      simp only [List.filter_cons, hk, decide_True, if_true, List.cons.injEq] at h0
      obtain ⟨hxy, _⟩ := h0
      subst hxy
      congr 1
      apply ih ys h₁.2 h₂.2
      intro k
      have hk' := hf k
      simp only [List.filter_cons] at hk'
      split_ifs at hk' with hd
      · exact List.cons_injective hk'
      · exact hk'

/-- C18: the ranking is deterministic.  Two invocations of the handler with the
same parameter for which the store query yields the same candidate list send
the same answer; and that answer is determined by the term list and the
candidate list alone: every array ordered by non-increasing `matchCount` that
keeps, for each value of `matchCount`, the candidates with that value in their
input order is the answer. -/
theorem searchByIngredients_deterministic (toLowerCase : Str → Str)
    (find₁ find₂ : List Str → Except String (List Recipe)) (q : Str)
    (candidates : List Recipe) (hq : q ≠ [])
    (h₁ : find₁ (ingredientList toLowerCase q) = .ok candidates)
    (h₂ : find₂ (ingredientList toLowerCase q) = .ok candidates) :
    searchByIngredients toLowerCase find₁ (some q) =
      searchByIngredients toLowerCase find₂ (some q) ∧
    ∃ out, searchByIngredients toLowerCase find₁ (some q) = .ok out ∧
      ∀ out' : List RankedRecipe,
        out'.Pairwise (fun a b => a.matchCount ≥ b.matchCount) →
        (∀ k, out'.filter (fun e => decide (e.matchCount = k)) =
          (recipesWithMatchCount toLowerCase (ingredientList toLowerCase q) candidates).filter
            (fun e => decide (e.matchCount = k))) →
        out' = out := by
  have e₁ := searchByIngredients_ok toLowerCase find₁ q candidates hq h₁
  have e₂ := searchByIngredients_ok toLowerCase find₂ q candidates hq h₂
  refine ⟨by rw [e₁, e₂], _, e₁, ?_⟩
  intro out' hs hf
  apply sorted_stable_unique (fun e : RankedRecipe => e.matchCount) out' _ hs
    (sort_pairwise compareMatchCount (fun e => e.matchCount) compareMatchCount_le _)
  intro k
  rw [hf k]
  exact (filter_key_sort compareMatchCount (fun e => e.matchCount) compareMatchCount_le k _).symm

/-- Witness of C18: the store holding A and B queried through the literal
matcher, and a store answer given outright. -/
theorem searchByIngredients_deterministic_witness :
    ("Tomato,cheese".toList ≠ [] ∧
      storeFind newRegExp [candidateA, candidateB]
        (ingredientList asciiToLowerCase "Tomato,cheese".toList) =
        .ok [candidateA, candidateB] ∧
      (fun _ => Except.ok [candidateA, candidateB] : List Str → Except String (List Recipe))
        (ingredientList asciiToLowerCase "Tomato,cheese".toList) =
        .ok [candidateA, candidateB]) ∧
    (searchByIngredients asciiToLowerCase (storeFind newRegExp [candidateA, candidateB])
        (some "Tomato,cheese".toList) =
      searchByIngredients asciiToLowerCase (fun _ => .ok [candidateA, candidateB])
        (some "Tomato,cheese".toList) ∧
    ∃ out, searchByIngredients asciiToLowerCase
        (storeFind newRegExp [candidateA, candidateB])
        (some "Tomato,cheese".toList) = .ok out ∧
      ∀ out' : List RankedRecipe,
        out'.Pairwise (fun a b => a.matchCount ≥ b.matchCount) →
        (∀ k, out'.filter (fun e => decide (e.matchCount = k)) =
          (recipesWithMatchCount asciiToLowerCase
            (ingredientList asciiToLowerCase "Tomato,cheese".toList)
            [candidateA, candidateB]).filter (fun e => decide (e.matchCount = k))) →
        out' = out) :=
  ⟨⟨by decide, rfl, rfl⟩,
    searchByIngredients_deterministic asciiToLowerCase
      (storeFind newRegExp [candidateA, candidateB]) (fun _ => .ok [candidateA, candidateB])
      "Tomato,cheese".toList [candidateA, candidateB] (by decide) rfl rfl⟩

/-! ## `truncateText` -/

/-- C19 fails for the text `abcdefgh` and `maxLength` 5: the result is
`abcde...`, of length 8. -/
theorem truncateText_exceeds_maxLength :
    truncateText (some "abcdefgh".toList) (some 5) = "abcde...".toList ∧
    (truncateText (some "abcdefgh".toList) (some 5)).length = 8 ∧
    ¬ (((truncateText (some "abcdefgh".toList) (some 5)).length : Int) ≤ 5) := by
  decide

theorem truncateText_long (t : Str) (maxLength : Int) (h : 0 ≤ maxLength)
    (hlong : maxLength < (t.length : Int)) :
    truncateText (some t) (some maxLength) = t.take maxLength.toNat ++ "...".toList := by
  cases t with
  | nil => simp at hlong; omega
  | cons c cs =>
    have hn : maxLength.toNat < (c :: cs).length := by omega
    have hlong' : ¬ (((c :: cs).length : Int) ≤ maxLength) := by omega
    simp only [truncateText, Option.getD_some, if_neg hlong', substring, Int.toNat_zero,
      Nat.zero_min, Nat.zero_le, Nat.min_eq_left, Nat.max_eq_right, Nat.sub_zero, List.drop_zero,
      Nat.min_eq_left (Nat.le_of_lt hn)]

/-- C19, as the code has it: for `maxLength >= 0` the result of
`truncateText(text, maxLength)` has length at most `maxLength + 3`.  A text
that fits is returned unchanged, an absent or empty text gives `''`, and a
longer text gives its first `maxLength` characters followed by `...`, which has
length exactly `maxLength + 3`.  Without `maxLength`, 100 is used. -/
theorem truncateText_length (t : Str) (maxLength : Int) (h : 0 ≤ maxLength) :
    ((truncateText (some t) (some maxLength)).length : Int) ≤ maxLength + 3 ∧
    ((t.length : Int) ≤ maxLength → truncateText (some t) (some maxLength) = t) ∧
    truncateText none (some maxLength) = [] ∧
    truncateText (some []) (some maxLength) = [] ∧
    (maxLength < (t.length : Int) →
      truncateText (some t) (some maxLength) = t.take maxLength.toNat ++ "...".toList ∧
      ((truncateText (some t) (some maxLength)).length : Int) = maxLength + 3) ∧
    truncateText (some t) none = truncateText (some t) (some 100) := by
  have hfit : (t.length : Int) ≤ maxLength → truncateText (some t) (some maxLength) = t := by
    intro hle
    cases t with
    | nil => rfl
    | cons c cs => simp only [truncateText, Option.getD_some, if_pos hle]
  have hlong : maxLength < (t.length : Int) →
      truncateText (some t) (some maxLength) = t.take maxLength.toNat ++ "...".toList ∧
      ((truncateText (some t) (some maxLength)).length : Int) = maxLength + 3 := by
    intro hl
    have e := truncateText_long t maxLength h hl
    refine ⟨e, ?_⟩
    rw [e, List.length_append, List.length_take]
    have : ("...".toList).length = 3 := rfl
    rw [this]
    omega
  refine ⟨?_, hfit, rfl, rfl, hlong, ?_⟩
  · rcases le_or_lt (t.length : Int) maxLength with hle | hl
    · rw [hfit hle]; omega
    · rw [(hlong hl).2]
  · cases t <;> rfl

/-- Witness of the amended C19: `abcdefgh` cut at 5. -/
theorem truncateText_length_witness :
    (0 : Int) ≤ 5 ∧
    (((truncateText (some "abcdefgh".toList) (some 5)).length : Int) ≤ 5 + 3 ∧
    ((("abcdefgh".toList).length : Int) ≤ 5 →
      truncateText (some "abcdefgh".toList) (some 5) = "abcdefgh".toList) ∧
    truncateText none (some 5) = [] ∧
    truncateText (some []) (some 5) = [] ∧
    ((5 : Int) < (("abcdefgh".toList).length : Int) →
      truncateText (some "abcdefgh".toList) (some 5) =
        ("abcdefgh".toList).take (5 : Int).toNat ++ "...".toList ∧
      ((truncateText (some "abcdefgh".toList) (some 5)).length : Int) = 5 + 3) ∧
    truncateText (some "abcdefgh".toList) none =
      truncateText (some "abcdefgh".toList) (some 100)) :=
  ⟨by decide, truncateText_length "abcdefgh".toList 5 (by decide)⟩

/-! ## `minutesToHoursAndMinutes` -/

theorem floorLog2Fuel_spec (fuel : Nat) : ∀ n : Nat, 0 < n → n ≤ fuel →
    2 ^ floorLog2Fuel fuel n ≤ n ∧ n < 2 ^ (floorLog2Fuel fuel n + 1) := by
  induction fuel with
  | zero => intro n hn hf; omega
  | succ fuel ih =>
    intro n hn hf
    unfold floorLog2Fuel
    by_cases h2 : n < 2
    · rw [if_pos h2]
      simp only [pow_zero, zero_add, pow_one]
      omega
    · rw [if_neg h2]
      obtain ⟨hlo, hhi⟩ := ih (n / 2) (by omega) (by omega)
      rw [pow_succ, pow_succ]
      rw [pow_succ] at hhi
      omega

/-- The halving loop finds the position of the leading binary digit. -/
theorem floorLog2_spec (n : Nat) (hn : 0 < n) :
    2 ^ floorLog2 n ≤ n ∧ n < 2 ^ (floorLog2 n + 1) :=
  floorLog2Fuel_spec n n hn (Nat.le_refl n)

/-- Below `2 ^ 53` the rounding of the quotient does not reach the next integer:
`Math.floor(t / 60)` is the integer quotient. -/
theorem floorOfQuotient_sixty (t : Nat) (h : t < 2 ^ 53) : floorOfQuotient t 60 = t / 60 := by
  unfold floorOfQuotient
  by_cases hq : t / 60 = 0
  · rw [if_pos hq, hq]
  · rw [if_neg hq]
    have hk := (floorLog2_spec (t / 60) (Nat.pos_of_ne_zero hq)).1
    have hk47 : floorLog2 (t / 60) ≤ 47 := by
      by_contra hcon
      have h48 : 2 ^ 48 ≤ 2 ^ floorLog2 (t / 60) :=
        Nat.pow_le_pow_right (by decide) (by omega)
      norm_num at h48 h
      omega
    rw [if_pos (by omega)]
    have hP : 2 ^ 5 ≤ 2 ^ (52 - floorLog2 (t / 60)) :=
      Nat.pow_le_pow_right (by decide) (by omega)
    generalize 2 ^ (52 - floorLog2 (t / 60)) = P at hP
    norm_num at hP
    have hX : t * P = 60 * (t / 60 * P) + t % 60 * P := by
      conv_lhs => rw [← Nat.div_add_mod t 60]
      ring
    have hB : t % 60 * P ≤ 59 * P := Nat.mul_le_mul_right P (by omega)
    have hS : (t / 60 + 1) * P = t / 60 * P + P := by ring
    have hR : t / 60 * P ≤ roundHalfEven (t * P) 60 ∧
        roundHalfEven (t * P) 60 < t / 60 * P + P := by
      unfold roundHalfEven
      rw [hX]
      generalize t / 60 * P = A
      generalize t % 60 * P = B at hB
      split_ifs <;> omega
    apply Nat.div_eq_of_lt_le
    · exact hR.1
    · show roundHalfEven (t * P) 60 < (t / 60 + 1) * P
      rw [hS]
      exact hR.2

/-- C20, as far as it holds: for a positive integer `totalMinutes` the result of
`minutesToHoursAndMinutes` has `0 <= minutes < 60` and `hours >= 0`, and, when
`totalMinutes` is below `2 ^ 53`, `hours * 60 + minutes = totalMinutes`; for an
absent, zero or negative argument it is `{ hours: 0, minutes: 0 }`. -/
theorem minutesToHoursAndMinutes_safe_range (totalMinutes : Int) :
    (0 < totalMinutes →
      0 ≤ (minutesToHoursAndMinutes (some totalMinutes)).minutes ∧
      (minutesToHoursAndMinutes (some totalMinutes)).minutes < 60 ∧
      0 ≤ (minutesToHoursAndMinutes (some totalMinutes)).hours ∧
      (totalMinutes < 2 ^ 53 →
        (minutesToHoursAndMinutes (some totalMinutes)).hours * 60 +
          (minutesToHoursAndMinutes (some totalMinutes)).minutes = totalMinutes)) ∧
    (totalMinutes ≤ 0 →
      minutesToHoursAndMinutes (some totalMinutes) = { hours := 0, minutes := 0 }) ∧
    minutesToHoursAndMinutes none = { hours := 0, minutes := 0 } := by
  refine ⟨?_, ?_, rfl⟩
  · intro hpos
    have hc : ¬ (totalMinutes = 0 ∨ totalMinutes ≤ 0) := by omega
    have hm : Int.tmod totalMinutes 60 = totalMinutes % 60 :=
      Int.tmod_eq_emod (le_of_lt hpos) (by decide)
    simp only [minutesToHoursAndMinutes, if_neg hc, hm]
    refine ⟨by omega, by omega, Int.natCast_nonneg _, ?_⟩
    intro hlt
    have hnat : totalMinutes.toNat < 2 ^ 53 := by
      norm_num at hlt ⊢
      omega
    rw [floorOfQuotient_sixty totalMinutes.toNat hnat]
    omega
  · intro hle
    have hc : totalMinutes = 0 ∨ totalMinutes ≤ 0 := Or.inr hle
    simp only [minutesToHoursAndMinutes, if_pos hc]

/-- Witness of C20: 135 minutes are 2 hours and 15 minutes. -/
theorem minutesToHoursAndMinutes_safe_range_witness :
    ((0 : Int) < 135 ∧ (135 : Int) < 2 ^ 53) ∧
    (minutesToHoursAndMinutes (some 135)).hours * 60 +
        (minutesToHoursAndMinutes (some 135)).minutes = 135 ∧
    minutesToHoursAndMinutes (some 135) = { hours := 2, minutes := 15 } :=
  ⟨⟨by decide, by decide⟩,
    ((minutesToHoursAndMinutes_safe_range 135).1 (by decide)).2.2.2 (by decide),
    by decide⟩

/-- Counterexample to C20: the positive integer `10 ^ 21`, which is a Number
value.  The quotient `10 ^ 21 / 60` is rounded to a multiple of 2048 before
`Math.floor` sees it, the result has `hours` 16666666666666665984 and `minutes`
40, and `hours * 60 + minutes` is not `10 ^ 21`. -/
theorem minutesToHoursAndMinutes_inexact :
    toDouble (10 ^ 21) = 10 ^ 21 ∧
    minutesToHoursAndMinutes (some (10 ^ 21)) =
      { hours := 16666666666666665984, minutes := 40 } ∧
    (minutesToHoursAndMinutes (some (10 ^ 21))).hours * 60 +
        (minutesToHoursAndMinutes (some (10 ^ 21))).minutes ≠ 10 ^ 21 := by
  decide

/-! ## `sanitizeInput` -/

theorem substring_zero (s : Str) (n : Int) : substring s 0 n = s.take n.toNat := by
  simp only [substring, Int.toNat_zero, Nat.zero_min, Nat.zero_le, Nat.min_eq_left,
    Nat.max_eq_right, Nat.sub_zero, List.drop_zero]
  rcases Nat.le_total n.toNat s.length with h | h
  · rw [Nat.min_eq_left h]
  · rw [Nat.min_eq_right h, List.take_of_length_le (le_refl _), List.take_of_length_le h]

theorem not_mem_removeAngleBrackets (s : Str) :
    '<' ∉ removeAngleBrackets s ∧ '>' ∉ removeAngleBrackets s := by
  unfold removeAngleBrackets
  constructor <;>
  · intro h
    have := (List.mem_filter.mp h).2
    simp at this

theorem sanitizeInput_string (s : Str) :
    sanitizeInput (.string s) = (removeAngleBrackets (trim s)).take 1000 := by
  cases s with
  | nil => rfl
  | cons c cs =>
    simp only [sanitizeInput]
    rw [substring_zero]
    rfl

/-- C21: for every input the result of `sanitizeInput` contains neither `<`
nor `>` and has at most 1000 characters; for an input that is absent
(`undefined`, `null`) or not a string the result is `''`, as it is for `''`.
For a string it is the trimmed string without `<` and `>`, cut to 1000. -/
theorem sanitizeInput_spec (input : JSValue) :
    '<' ∉ sanitizeInput input ∧ '>' ∉ sanitizeInput input ∧
    (sanitizeInput input).length ≤ 1000 ∧
    ((∀ s, input ≠ .string s) → sanitizeInput input = []) ∧
    sanitizeInput (.string []) = [] ∧
    (∀ s, input = .string s →
      sanitizeInput input = (removeAngleBrackets (trim s)).take 1000) := by
  have hstr : ∀ s, '<' ∉ sanitizeInput (.string s) ∧ '>' ∉ sanitizeInput (.string s) ∧
      (sanitizeInput (.string s)).length ≤ 1000 := by
    intro s
    rw [sanitizeInput_string]
    have h := not_mem_removeAngleBrackets (trim s)
    exact ⟨fun hm => h.1 (List.mem_of_mem_take hm), fun hm => h.2 (List.mem_of_mem_take hm),
      by rw [List.length_take]; exact Nat.min_le_left _ _⟩
  cases input with
  | string s =>
    exact ⟨(hstr s).1, (hstr s).2.1, (hstr s).2.2, fun h => absurd rfl (h s), rfl,
      fun t ht => by cases ht; exact sanitizeInput_string s⟩
  | undefined => exact ⟨by simp [sanitizeInput], by simp [sanitizeInput], by simp [sanitizeInput],
      fun _ => rfl, rfl, fun t ht => by cases ht⟩
  | null => exact ⟨by simp [sanitizeInput], by simp [sanitizeInput], by simp [sanitizeInput],
      fun _ => rfl, rfl, fun t ht => by cases ht⟩
  | boolean b => exact ⟨by simp [sanitizeInput], by simp [sanitizeInput], by simp [sanitizeInput],
      fun _ => rfl, rfl, fun t ht => by cases ht⟩
  | number n => exact ⟨by simp [sanitizeInput], by simp [sanitizeInput], by simp [sanitizeInput],
      fun _ => rfl, rfl, fun t ht => by cases ht⟩
  | object => exact ⟨by simp [sanitizeInput], by simp [sanitizeInput], by simp [sanitizeInput],
      fun _ => rfl, rfl, fun t ht => by cases ht⟩

/-- Witness of C21: a number is not a string, and a bold tag loses its brackets. -/
theorem sanitizeInput_spec_witness :
    (∀ s, JSValue.number 7 ≠ .string s) ∧ sanitizeInput (.number 7) = [] ∧
    sanitizeInput (.string " <b>Hi</b> ".toList) =
      (removeAngleBrackets (trim " <b>Hi</b> ".toList)).take 1000 :=
  ⟨fun _ h => JSValue.noConfusion h,
    (sanitizeInput_spec (.number 7)).2.2.2.1 (fun _ h => JSValue.noConfusion h),
    (sanitizeInput_spec (.string " <b>Hi</b> ".toList)).2.2.2.2.2 _ rfl⟩

/-! ## `formatCookingTime` -/

/-- C22, as far as it holds: for every integer `m`, `formatCookingTime(m)` is
`N/A` when `m <= 0` (and when `m` is absent), the decimal digits of `m` followed
by ` min` when `0 < m < 60`, and otherwise it renders the hours `h` and the
minutes `r` that `minutesToHoursAndMinutes(m)` returns: `h` followed by `h` when
`r = 0`, and `h`, `h `, `r` and `min` when `r > 0`.  Here `r` is `m mod 60`
and is written in decimal digits, and, when `m` is below `2 ^ 53`, `h` is
`floor(m / 60)` and is written in decimal digits. -/
theorem formatCookingTime_safe_range (m : Int) :
    (m ≤ 0 → formatCookingTime (some m) = "N/A".toList) ∧
    formatCookingTime none = "N/A".toList ∧
    (0 < m → m < 60 →
      formatCookingTime (some m) = Nat.toDigits 10 m.toNat ++ " min".toList) ∧
    (60 ≤ m →
      (minutesToHoursAndMinutes (some m)).minutes = m % 60 ∧
      numberToString (minutesToHoursAndMinutes (some m)).minutes =
        Nat.toDigits 10 (m % 60).toNat ∧
      ((minutesToHoursAndMinutes (some m)).minutes = 0 →
        formatCookingTime (some m) =
          numberToString (minutesToHoursAndMinutes (some m)).hours ++ "h".toList) ∧
      ((minutesToHoursAndMinutes (some m)).minutes > 0 →
        formatCookingTime (some m) =
          numberToString (minutesToHoursAndMinutes (some m)).hours ++ "h ".toList ++
            numberToString (minutesToHoursAndMinutes (some m)).minutes ++ "min".toList) ∧
      (m < 2 ^ 53 →
        (minutesToHoursAndMinutes (some m)).hours = m / 60 ∧
        numberToString (minutesToHoursAndMinutes (some m)).hours =
          Nat.toDigits 10 (m / 60).toNat)) := by
  refine ⟨?_, rfl, ?_, ?_⟩
  · intro h
    have hc : m = 0 ∨ m ≤ 0 := Or.inr h
    simp only [formatCookingTime, if_pos hc]
  · intro h0 h60
    have hc : ¬ (m = 0 ∨ m ≤ 0) := by omega
    have hneg : ¬ m < 0 := by omega
    have hsafe : m.toNat < 2 ^ 53 := by
      norm_num
      omega
    simp only [formatCookingTime, if_neg hc, if_pos h60, numberToString, if_neg hneg,
      naturalToString, if_pos hsafe]
  · intro h60
    have hc : ¬ (m = 0 ∨ m ≤ 0) := by omega
    have hlt : ¬ m < 60 := by omega
    have hm : Int.tmod m 60 = m % 60 := Int.tmod_eq_emod (by omega) (by decide)
    have hh : (minutesToHoursAndMinutes (some m)).hours = (floorOfQuotient m.toNat 60 : Nat) := by
      simp only [minutesToHoursAndMinutes, if_neg hc]
    have hr : (minutesToHoursAndMinutes (some m)).minutes = m % 60 := by
      simp only [minutesToHoursAndMinutes, if_neg hc, hm]
    refine ⟨hr, ?_, ?_, ?_, ?_⟩
    · have hneg : ¬ m % 60 < 0 := by omega
      have hsafe : (m % 60).toNat < 2 ^ 53 := by
        norm_num
        omega
      rw [hr]
      simp only [numberToString, if_neg hneg, naturalToString, if_pos hsafe]
    · intro hz
      rw [hr] at hz
      rw [hh]
      simp only [formatCookingTime, if_neg hc, if_neg hlt, hm, if_pos hz]
    · intro hp
      rw [hr] at hp
      have hnz : ¬ m % 60 = 0 := by omega
      rw [hh, hr]
      simp only [formatCookingTime, if_neg hc, if_neg hlt, hm, if_neg hnz]
    · intro hsafe
      have hnat : m.toNat < 2 ^ 53 := by
        norm_num at hsafe ⊢
        omega
      have hq : ((floorOfQuotient m.toNat 60 : Nat) : Int) = m / 60 := by
        rw [floorOfQuotient_sixty m.toNat hnat]
        omega
      have hneg : ¬ m / 60 < 0 := by omega
      have hsafe' : (m / 60).toNat < 2 ^ 53 := by
        norm_num at hsafe ⊢
        omega
      rw [hh, hq]
      simp only [numberToString, if_neg hneg, naturalToString, if_pos hsafe', and_self]

/-- Witness of C22: 135 minutes are rendered as `2h 15min`, 120 as `2h`, 45 as
`45 min`, 0 as `N/A`. -/
theorem formatCookingTime_safe_range_witness :
    ((60 : Int) ≤ 135 ∧ (minutesToHoursAndMinutes (some 135)).minutes > 0 ∧
      (135 : Int) < 2 ^ 53) ∧
    formatCookingTime (some 135) =
      numberToString (minutesToHoursAndMinutes (some 135)).hours ++ "h ".toList ++
        numberToString (minutesToHoursAndMinutes (some 135)).minutes ++ "min".toList ∧
    ((minutesToHoursAndMinutes (some 135)).hours = 135 / 60 ∧
      numberToString (minutesToHoursAndMinutes (some 135)).hours =
        Nat.toDigits 10 ((135 : Int) / 60).toNat) ∧
    formatCookingTime (some 135) = "2h 15min".toList ∧
    formatCookingTime (some 120) = "2h".toList ∧
    formatCookingTime (some 45) = "45 min".toList ∧
    formatCookingTime (some 0) = "N/A".toList :=
  ⟨⟨by decide, by decide, by decide⟩,
    ((formatCookingTime_safe_range 135).2.2.2 (by decide)).2.2.2.1 (by decide),
    ((formatCookingTime_safe_range 135).2.2.2 (by decide)).2.2.2.2 (by decide),
    by decide, by decide, by decide, by decide⟩

/-- Counterexample to C22: the integer `10 ^ 21`, which is a Number value.
`formatCookingTime` renders it as `16666666666666666000h 40min`: the hours that
`minutesToHoursAndMinutes` returns are 16666666666666665984, whose shortest
decimal form is written, and not `floor(10 ^ 21 / 60)`, which is
16666666666666666666. -/
theorem formatCookingTime_large :
    toDouble (10 ^ 21) = 10 ^ 21 ∧
    formatCookingTime (some (10 ^ 21)) = "16666666666666666000h 40min".toList ∧
    (minutesToHoursAndMinutes (some (10 ^ 21))).hours = 16666666666666665984 ∧
    numberToString (minutesToHoursAndMinutes (some (10 ^ 21))).hours =
      "16666666666666666000".toList ∧
    ((10 : Int) ^ 21) / 60 = 16666666666666666666 ∧
    (minutesToHoursAndMinutes (some (10 ^ 21))).hours ≠ ((10 : Int) ^ 21) / 60 := by
  decide

/-! ## `slugify` -/

theorem mem_replaceRuns (p : Char → Bool) (r : Char) (b : Bool) (s : Str) (c : Char)
    (h : c ∈ replaceRuns p r b s) : c = r ∨ (c ∈ s ∧ p c = false) := by
  induction s generalizing b with
  | nil => simp [replaceRuns] at h
  | cons d ds ih =>
    simp only [replaceRuns] at h
    by_cases hp : p d = true
    · rw [if_pos hp] at h
      by_cases hb : b = true
      · rw [if_pos hb] at h
        rcases ih true h with e | ⟨hm, hc⟩
        · exact Or.inl e
        · exact Or.inr ⟨List.mem_cons_of_mem _ hm, hc⟩
      · rw [if_neg hb] at h
        rcases List.mem_cons.mp h with e | h
        · exact Or.inl e
        · rcases ih true h with e | ⟨hm, hc⟩
          · exact Or.inl e
          · exact Or.inr ⟨List.mem_cons_of_mem _ hm, hc⟩
    · rw [if_neg hp] at h
      rcases List.mem_cons.mp h with e | h
      · exact Or.inr ⟨by rw [e]; exact List.mem_cons_self _ _, by rw [e]; simpa using hp⟩
      · rcases ih false h with e | ⟨hm, hc⟩
        · exact Or.inl e
        · exact Or.inr ⟨List.mem_cons_of_mem _ hm, hc⟩

theorem replaceRuns_chain (p : Char → Bool) (r : Char) (hr : p r = true) (b : Bool) (s : Str) :
    (replaceRuns p r b s).Chain' (fun x y => ¬ (x = r ∧ y = r)) ∧
    (b = true → ∀ x ∈ (replaceRuns p r b s).head?, x ≠ r) := by
  induction s generalizing b with
  | nil => simp [replaceRuns]
  | cons d ds ih =>
    simp only [replaceRuns]
    by_cases hp : p d = true
    · rw [if_pos hp]
      by_cases hb : b = true
      · rw [if_pos hb]
        exact ⟨(ih true).1, fun _ => (ih true).2 rfl⟩
      · rw [if_neg hb]
        refine ⟨List.chain'_cons'.mpr ⟨?_, (ih true).1⟩, fun h => absurd h hb⟩
        intro y hy hxy
        exact (ih true).2 rfl y hy hxy.2
    · rw [if_neg hp]
      have hd : d ≠ r := fun e => hp (by rw [e]; exact hr)
      refine ⟨List.chain'_cons'.mpr ⟨?_, (ih false).1⟩, ?_⟩
      · intro y _ hxy
        exact hd hxy.1
      · intro _ x hx
        simp only [List.head?_cons, Option.mem_def, Option.some.injEq] at hx
        rw [← hx]; exact hd

theorem mem_of_mem_trim (s : Str) (c : Char) (h : c ∈ trim s) : c ∈ s := by
  have h1 : trim s <+: s.dropWhile isTrimChar := by
    rw [trim_eq_rdropWhile]; exact List.rdropWhile_prefix _ _
  exact (List.dropWhile_sublist isTrimChar).subset (h1.subset h)

theorem slug_char_of_kept (c : Char)
    (hup : ¬ (65 ≤ c.toNat ∧ c.toNat ≤ 90))
    (hkept : (isWordChar c || isTrimChar c || c == '-') = true)
    (hp : (isTrimChar c || c == '_' || c == '-') = false) :
    (97 ≤ c.toNat ∧ c.toNat ≤ 122) ∨ (48 ≤ c.toNat ∧ c.toNat ≤ 57) ∨ c = '-' := by
  simp only [Bool.or_eq_false_iff, beq_eq_false_iff_ne] at hp
  obtain ⟨⟨ht, hu⟩, hd⟩ := hp
  simp only [Bool.or_eq_true, beq_iff_eq, ht, hd, or_false] at hkept
  simp only [isWordChar, Bool.or_eq_true, Bool.and_eq_true, decide_eq_true_eq, beq_iff_eq]
    at hkept
  rcases hkept with (((h | h) | h) | h) | h
  · exact absurd h hup
  · exact Or.inl h
  · exact Or.inr (Or.inl h)
  · exact absurd h hu
  · exact absurd h (by simp)

/-- C23: `slugify` returns a well-formed slug.  For every lower-casing that
yields no letter `A`-`Z` (as `toLowerCase` does) and every argument, the result
consists only of the characters `a`-`z`, `0`-`9` and `-`, does not begin with
`-`, does not end with `-`, and contains no two consecutive `-`. -/
theorem slugify_wellFormed (toLowerCase : Str → Str)
    (hlow : ∀ s, ∀ c ∈ toLowerCase s, ¬ (65 ≤ c.toNat ∧ c.toNat ≤ 90)) (str : Option Str) :
    (∀ c ∈ slugify toLowerCase str,
      (97 ≤ c.toNat ∧ c.toNat ≤ 122) ∨ (48 ≤ c.toNat ∧ c.toNat ≤ 57) ∨ c = '-') ∧
    (slugify toLowerCase str).head? ≠ some '-' ∧
    (slugify toLowerCase str).getLast? ≠ some '-' ∧
    ¬ (['-', '-'] <:+: slugify toLowerCase str) := by
  cases str with
  | none => simp [slugify]
  | some s =>
    cases s with
    | nil => simp [slugify]
    | cons a as =>
      simp only [slugify]
      generalize hk : (trim (toLowerCase (a :: as))).filter
        (fun c => isWordChar c || isTrimChar c || c == '-') = kept
      generalize hd : replaceRuns (fun c => isTrimChar c || c == '_' || c == '-') '-' false kept =
        dashed
      have hpre : ((dashed.dropWhile (fun c => c == '-')).reverse.dropWhile
          (fun c => c == '-')).reverse <+: dashed.dropWhile (fun c => c == '-') :=
        List.rdropWhile_prefix (fun c => c == '-') (dashed.dropWhile (fun c => c == '-'))
      have hinf : ((dashed.dropWhile (fun c => c == '-')).reverse.dropWhile
          (fun c => c == '-')).reverse <:+: dashed :=
        (hpre.isInfix).trans (List.dropWhile_suffix (fun c => c == '-')).isInfix
      have hchain := (replaceRuns_chain (fun c => isTrimChar c || c == '_' || c == '-') '-'
        (by decide) false kept).1
      rw [hd] at hchain
      refine ⟨?_, ?_, ?_, ?_⟩
      · intro c hc
        have hcd : c ∈ dashed := hinf.subset hc
        rw [← hd] at hcd
        rcases mem_replaceRuns _ _ _ _ _ hcd with e | ⟨hm, hp⟩
        · exact Or.inr (Or.inr e)
        · rw [← hk] at hm
          have hf := List.mem_filter.mp hm
          exact slug_char_of_kept c (hlow _ c (mem_of_mem_trim _ c hf.1)) hf.2 hp
      · intro hh
        have hne : ((dashed.dropWhile (fun c => c == '-')).reverse.dropWhile
            (fun c => c == '-')).reverse ≠ [] := by
          intro e; rw [e] at hh; simp at hh
        rw [head?_eq_of_initial hpre hne] at hh
        have := dropWhile_head_not (fun c => c == '-') dashed '-' hh
        simp at this
      · intro hh
        rw [List.getLast?_reverse] at hh
        have := dropWhile_head_not (fun c => c == '-')
          (dashed.dropWhile (fun c => c == '-')).reverse '-' hh
        simp at this
      · intro h2
        have hc2 := List.Chain'.infix hchain (h2.trans hinf)
        simp at hc2

theorem asciiToLowerCase_no_upper (s : Str) :
    ∀ c ∈ asciiToLowerCase s, ¬ (65 ≤ c.toNat ∧ c.toNat ≤ 90) := by
  intro c hc
  simp only [asciiToLowerCase, List.mem_map] at hc
  obtain ⟨d, _, rfl⟩ := hc
  by_cases h : 65 ≤ d.toNat ∧ d.toNat ≤ 90
  · rw [asciiLowerChar_toNat d h]; omega
  · unfold asciiLowerChar
    rw [if_neg h]; exact h

/-- Witness of C23: the ASCII lower-casing yields no letter `A`-`Z`, and the
title `  Hello, World_ -- Pie! ` becomes `hello-world-pie`. -/
theorem slugify_wellFormed_witness :
    (∀ s, ∀ c ∈ asciiToLowerCase s, ¬ (65 ≤ c.toNat ∧ c.toNat ≤ 90)) ∧
    slugify asciiToLowerCase (some "  Hello, World_ -- Pie! ".toList) =
      "hello-world-pie".toList ∧
    ((∀ c ∈ slugify asciiToLowerCase (some "  Hello, World_ -- Pie! ".toList),
      (97 ≤ c.toNat ∧ c.toNat ≤ 122) ∨ (48 ≤ c.toNat ∧ c.toNat ≤ 57) ∨ c = '-') ∧
    (slugify asciiToLowerCase (some "  Hello, World_ -- Pie! ".toList)).head? ≠ some '-' ∧
    (slugify asciiToLowerCase (some "  Hello, World_ -- Pie! ".toList)).getLast? ≠ some '-' ∧
    ¬ (['-', '-'] <:+: slugify asciiToLowerCase (some "  Hello, World_ -- Pie! ".toList))) :=
  ⟨asciiToLowerCase_no_upper, by decide,
    slugify_wellFormed asciiToLowerCase asciiToLowerCase_no_upper
      (some "  Hello, World_ -- Pie! ".toList)⟩

/-! ## `stripHtmlTags` -/

theorem stripTagsFrom_sublist (b : Bool) (s : Str) : List.Sublist (stripTagsFrom b s) s := by
  induction s generalizing b with
  | nil => cases b <;> exact List.Sublist.slnil
  | cons c cs ih =>
    cases b with
    | true =>
      simp only [stripTagsFrom]
      split_ifs
      · exact List.Sublist.cons _ (ih false)
      · exact List.Sublist.cons _ (ih true)
    | false =>
      simp only [stripTagsFrom]
      split_ifs
      · exact List.Sublist.cons _ (ih true)
      · exact List.Sublist.cons₂ _ (ih false)

theorem stripTagsFrom_pairwise (b : Bool) (s : Str) :
    (stripTagsFrom b s).Pairwise (fun x y => ¬ (x = '<' ∧ y = '>')) := by
  induction s generalizing b with
  | nil => cases b <;> exact List.Pairwise.nil
  | cons c cs ih =>
    cases b with
    | true =>
      simp only [stripTagsFrom]
      split_ifs
      · exact ih false
      · exact ih true
    | false =>
      simp only [stripTagsFrom]
      split_ifs with h
      · exact ih true
      · refine List.Pairwise.cons ?_ (ih false)
        rintro y hy ⟨hc, rfl⟩
        exact h ⟨hc, (stripTagsFrom_sublist false cs).subset hy⟩

theorem stripTagsFrom_eq_self (s : Str)
    (h : s.Pairwise (fun x y => ¬ (x = '<' ∧ y = '>'))) : stripTagsFrom false s = s := by
  induction s with
  | nil => rfl
  | cons c cs ih =>
    rw [List.pairwise_cons] at h
    have hc : ¬ (c = '<' ∧ '>' ∈ cs) := fun ⟨h1, h2⟩ => h.1 '>' h2 ⟨h1, rfl⟩
    simp only [stripTagsFrom, if_neg hc, ih h.2]

/-- C24: the result of `stripHtmlTags` contains no tag: no `<` of the result
is followed anywhere later by a `>` (for any two positions, and for any way to
cut the result at a `<`), and so applying `stripHtmlTags` to the result gives
the result again. -/
theorem stripHtmlTags_no_tag (str : Option Str) :
    (stripHtmlTags str).Pairwise (fun x y => ¬ (x = '<' ∧ y = '>')) ∧
    (∀ pre post : Str, stripHtmlTags str = pre ++ '<' :: post → '>' ∉ post) ∧
    stripHtmlTags (some (stripHtmlTags str)) = stripHtmlTags str := by
  have hp : (stripHtmlTags str).Pairwise (fun x y => ¬ (x = '<' ∧ y = '>')) := by
    cases str with
    | none => exact List.Pairwise.nil
    | some s => exact stripTagsFrom_pairwise false s
  refine ⟨hp, ?_, stripTagsFrom_eq_self _ hp⟩
  intro pre post he hmem
  rw [he, List.pairwise_append] at hp
  exact (List.pairwise_cons.mp hp.2.1).1 '>' hmem ⟨rfl, rfl⟩

/-- Witness of C24: on `a<b>c<d e<f>g> h<i` the result is `acg> h<i`; its only
`<` has no `>` after it, and it is a fixed point. -/
theorem stripHtmlTags_no_tag_witness :
    stripHtmlTags (some "a<b>c<d e<f>g> h<i".toList) = "acg> h<i".toList ∧
    stripHtmlTags (some "a<b>c<d e<f>g> h<i".toList) = "acg> h".toList ++ '<' :: "i".toList ∧
    '>' ∉ "i".toList ∧
    stripHtmlTags (some (stripHtmlTags (some "a<b>c<d e<f>g> h<i".toList))) =
      stripHtmlTags (some "a<b>c<d e<f>g> h<i".toList) :=
  ⟨by decide, by decide,
    (stripHtmlTags_no_tag (some "a<b>c<d e<f>g> h<i".toList)).2.1 "acg> h".toList "i".toList
      (by decide),
    (stripHtmlTags_no_tag (some "a<b>c<d e<f>g> h<i".toList)).2.2⟩

/-! ## `validateRecipeData` -/

theorem truthy_iff (o : Option Str) : truthy o = true ↔ ∃ c, o = some c ∧ c ≠ [] := by
  cases o with
  | none => simp [truthy]
  | some c =>
    cases c with
    | nil => simp [truthy]
    | cons a as => simp [truthy]

theorem trim_nil : trim [] = [] := rfl

theorem text_error_nil_iff (o : Option Str) (n : Nat) (hn : 0 < n) (e : String × String) :
    (if (!truthy o || decide (trimmedLength o < n)) = true then [e] else []) = [] ↔
      ∃ t, o = some t ∧ n ≤ (trim t).length := by
  cases o with
  | none => simp [truthy]
  | some c =>
    cases c with
    | nil =>
      simp only [truthy, trimmedLength, trim_nil, List.length_nil, Bool.not_false, Bool.true_or,
        if_true, Option.some.injEq, exists_eq_left']
      constructor
      · intro h; cases h
      · intro h; omega
    | cons a as =>
      simp only [truthy, trimmedLength, Bool.not_true, Bool.false_or, decide_eq_true_eq,
        Option.some.injEq, exists_eq_left']
      split_ifs with h
      · constructor
        · intro h'; cases h'
        · intro h'; omega
      · constructor
        · intro _; omega
        · intro _; rfl

theorem present_error_nil_iff (o : Option Str) (e : String × String) :
    (if (!truthy o) = true then [e] else []) = [] ↔ ∃ c, o = some c ∧ c ≠ [] := by
  rw [← truthy_iff]
  cases truthy o <;> simp

theorem hasInstruction_iff (step : FormStep) :
    hasInstruction step = true ↔ ∃ ins, step.instruction = some ins ∧ trim ins ≠ [] := by
  unfold hasInstruction
  cases hi : step.instruction with
  | none => simp [truthy]
  | some c =>
    cases c with
    | nil => simp [truthy, trim_nil]
    | cons a as =>
      simp only [truthy, trimmedLength, Bool.true_and, decide_eq_true_eq, Option.some.injEq,
        exists_eq_left']
      exact List.length_pos

/-- C25: `validateRecipeData` returns `isValid = true` if and only if its
errors object has no key, and that is the case if and only if the trimmed title
has at least 3 characters, the trimmed description has at least 10 characters,
`cookingTime` is greater than 0, `category` and `difficulty` are present (and
not `''`), `ingredients` is a non-empty array, and at least one step has a
non-blank instruction. -/
theorem validateRecipeData_isValid_iff (data : RecipeFormData) :
    ((validateRecipeData data).isValid = true ↔ (validateRecipeData data).errors = []) ∧
    ((validateRecipeData data).errors = [] ↔
      (∃ t, data.title = some t ∧ 3 ≤ (trim t).length) ∧
      (∃ d, data.description = some d ∧ 10 ≤ (trim d).length) ∧
      (∃ m, data.cookingTime = some m ∧ 0 < m) ∧
      (∃ c, data.category = some c ∧ c ≠ []) ∧
      (∃ c, data.difficulty = some c ∧ c ≠ []) ∧
      (∃ l, data.ingredients = some l ∧ l ≠ []) ∧
      (∃ l, data.steps = some l ∧
        ∃ step ∈ l, ∃ ins, step.instruction = some ins ∧ trim ins ≠ [])) := by
  constructor
  · simp only [validateRecipeData, beq_iff_eq, List.length_eq_zero]
  · have hct : (match data.cookingTime with
        | none => [("cookingTime", "Cooking time must be greater than 0")]
        | some t => if t = 0 ∨ t ≤ 0 then [("cookingTime", "Cooking time must be greater than 0")]
          else []) = ([] : List (String × String)) ↔ ∃ m, data.cookingTime = some m ∧ 0 < m := by
      cases data.cookingTime with
      | none => simp
      | some t =>
        simp only [Option.some.injEq, exists_eq_left']
        split_ifs with h
        · constructor
          · intro h'; cases h'
          · intro h'; omega
        · constructor
          · intro _; omega
          · intro _; rfl
    have hing : (match data.ingredients with
        | none => [("ingredients", "At least one ingredient is required")]
        | some l => if l.length = 0 then [("ingredients", "At least one ingredient is required")]
          else []) = ([] : List (String × String)) ↔ ∃ l, data.ingredients = some l ∧ l ≠ [] := by
      cases data.ingredients with
      | none => simp
      | some l =>
        simp only [Option.some.injEq, exists_eq_left', List.length_eq_zero]
        split_ifs with h
        · constructor
          · intro h'; cases h'
          · intro h'; exact absurd h h'
        · constructor
          · intro _; exact h
          · intro _; rfl
    have hst : (match data.steps with
        | none => [("steps", "At least one cooking step is required")]
        | some l => if (l.filter hasInstruction).length = 0 then
            [("steps", "At least one cooking step is required")] else []) =
          ([] : List (String × String)) ↔
        ∃ l, data.steps = some l ∧
          ∃ step ∈ l, ∃ ins, step.instruction = some ins ∧ trim ins ≠ [] := by
      cases data.steps with
      | none => simp
      | some l =>
        simp only [Option.some.injEq, exists_eq_left', List.length_eq_zero,
          List.filter_eq_nil_iff]
        split_ifs with h
        · constructor
          · intro h'; cases h'
          · rintro ⟨step, hs, hi⟩
            exact absurd ((hasInstruction_iff step).mpr hi) (h step hs)
        · constructor
          · intro _
            push_neg at h
            obtain ⟨step, hs, hi⟩ := h
            exact ⟨step, hs, (hasInstruction_iff step).mp hi⟩
          · intro _; rfl
    simp only [validateRecipeData, List.append_eq_nil, and_assoc]
    rw [text_error_nil_iff data.title 3 (by decide), text_error_nil_iff data.description 10
      (by decide), hct, present_error_nil_iff, present_error_nil_iff, hing, hst]

/-- Witness of C25: a complete form is valid; without a title it is not. -/
theorem validateRecipeData_isValid_iff_witness :
    (validateRecipeData ⟨some "Pie".toList, some "A very good pie".toList, some 30,
      some "Dessert".toList, some "Easy".toList, some [⟨some "Flour".toList, some "1".toList⟩],
      some [⟨some 1, some "Bake".toList⟩]⟩).errors = [] ∧
    (validateRecipeData ⟨some "Pie".toList, some "A very good pie".toList, some 30,
      some "Dessert".toList, some "Easy".toList, some [⟨some "Flour".toList, some "1".toList⟩],
      some [⟨some 1, some "Bake".toList⟩]⟩).isValid = true ∧
    (validateRecipeData ⟨none, some "A very good pie".toList, some 30,
      some "Dessert".toList, some "Easy".toList, some [⟨some "Flour".toList, some "1".toList⟩],
      some [⟨some 1, some "Bake".toList⟩]⟩).isValid = false :=
  ⟨by decide,
    (validateRecipeData_isValid_iff ⟨some "Pie".toList, some "A very good pie".toList, some 30,
      some "Dessert".toList, some "Easy".toList, some [⟨some "Flour".toList, some "1".toList⟩],
      some [⟨some 1, some "Bake".toList⟩]⟩).1.mpr (by decide),
    by decide⟩

/-! ## `cleanRecipeData` -/

/-- C26: `cleanRecipeData` at the ingredient with name `<>` and the step
`<b>Mix it</b>`.  The filters of lines 525 and 529 keep the valid items only,
and the sanitizing that follows makes kept items invalid again: both items pass
the filters (the name is not blank, the instruction has 13
characters), but the ingredient of the output has the name `''`, which
`validateIngredient` rejects, and the step of the output has the instruction
`bMix it/b` of 9 characters, which `validateCookingStep` rejects. -/
theorem cleanRecipeData_output_invalid :
    validateIngredient ⟨some "<>".toList, some "1".toList⟩ = true ∧
    validateCookingStep ⟨some 1, some "<b>Mix it</b>".toList⟩ = true ∧
    (cleanRecipeData ⟨some "Pie".toList, some "A very good pie".toList, some 30,
        some "Dessert".toList, some "Easy".toList, some [⟨some "<>".toList, some "1".toList⟩],
        some [⟨some 1, some "<b>Mix it</b>".toList⟩]⟩).map (fun d => (d.ingredients, d.steps)) =
      some ([⟨[], "1".toList⟩], [⟨1, "bMix it/b".toList⟩]) ∧
    validateIngredient (Ingredient.toForm ⟨[], "1".toList⟩) = false ∧
    validateCookingStep (Step.toForm ⟨1, "bMix it/b".toList⟩) = false := by
  decide

theorem removeAngleBrackets_eq_self (s : Str) (h1 : '<' ∉ s) (h2 : '>' ∉ s) :
    removeAngleBrackets s = s := by
  unfold removeAngleBrackets
  apply List.filter_eq_self.mpr
  intro c hc
  have hlt : c ≠ '<' := fun e => h1 (e ▸ hc)
  have hgt : c ≠ '>' := fun e => h2 (e ▸ hc)
  simp [hlt, hgt]

theorem sanitizeInput_plain (s : Str) (h1 : '<' ∉ s) (h2 : '>' ∉ s)
    (hlen : (trim s).length ≤ 1000) : sanitizeInput (.string s) = trim s := by
  rw [sanitizeInput_string, removeAngleBrackets_eq_self (trim s)
    (fun h => h1 (mem_of_mem_trim s _ h)) (fun h => h2 (mem_of_mem_trim s _ h)),
    List.take_of_length_le hlen]

theorem map_stepNumber_enum (f : FormStep → Str) (l : List FormStep) :
    (l.enum.map (fun p => ({ stepNumber := p.1 + 1, instruction := f p.2 } : Step))).map
        (fun st => st.stepNumber) = (List.range l.length).map (fun n => n + 1) := by
  rw [List.map_map, ← List.enum_map_fst l, List.map_map]
  rfl

theorem map_instruction_enum (f : FormStep → Str) (l : List FormStep) :
    (l.enum.map (fun p => ({ stepNumber := p.1 + 1, instruction := f p.2 } : Step))).map
        (fun st => st.instruction) = l.map f := by
  rw [List.map_map]
  conv_rhs => rw [← List.enum_map_snd l, List.map_map]
  rfl

/-- What `cleanRecipeData` returns: the ingredients of the output of
`cleanRecipeData` are the sanitized images, in order, of the input ingredients
that satisfy `validateIngredient`; the steps of the output are the sanitized
images of the input steps that satisfy `validateCookingStep`, in their original
relative order and numbered 1..n.  An ingredient of the output satisfies
`validateIngredient` when the name and the quantity it comes from contain no
`<` and no `>` and have at most 1000 characters after trimming, and likewise a
step of the output satisfies `validateCookingStep` when its instruction does. -/
theorem cleanRecipeData_spec (data : RecipeFormData) (ingredients : List FormIngredient)
    (steps : List FormStep) (hi : data.ingredients = some ingredients)
    (hs : data.steps = some steps) :
    ∃ out, cleanRecipeData data = some out ∧
      out.ingredients = (ingredients.filter validateIngredient).map (fun i =>
        ({ name := sanitizeInput (JSValue.ofOption i.name),
           quantity := sanitizeInput (JSValue.ofOption i.quantity) } : Ingredient)) ∧
      out.steps.map (fun st => st.instruction) = (steps.filter validateCookingStep).map
        (fun st => sanitizeInput (JSValue.ofOption st.instruction)) ∧
      out.steps.map (fun st => st.stepNumber) =
        (List.range out.steps.length).map (fun n => n + 1) ∧
      out.steps.length = (steps.filter validateCookingStep).length ∧
      (∀ (i : FormIngredient) (name quantity : Str), validateIngredient i = true →
        i.name = some name → i.quantity = some quantity →
        '<' ∉ name → '>' ∉ name → (trim name).length ≤ 1000 →
        '<' ∉ quantity → '>' ∉ quantity → (trim quantity).length ≤ 1000 →
        validateIngredient (Ingredient.toForm
          { name := sanitizeInput (JSValue.ofOption i.name),
            quantity := sanitizeInput (JSValue.ofOption i.quantity) }) = true) ∧
      (∀ (st : FormStep) (ins : Str) (n : Nat), validateCookingStep st = true →
        st.instruction = some ins →
        '<' ∉ ins → '>' ∉ ins → (trim ins).length ≤ 1000 →
        validateCookingStep (Step.toForm
          { stepNumber := n, instruction := sanitizeInput (JSValue.ofOption st.instruction) }) =
          true) := by
  have hout : cleanRecipeData data = some
      { title := sanitizeInput (JSValue.ofOption data.title),
        description := sanitizeInput (JSValue.ofOption data.description),
        ingredients := (ingredients.filter validateIngredient).map (fun ingredient =>
          { name := sanitizeInput (JSValue.ofOption ingredient.name),
            quantity := sanitizeInput (JSValue.ofOption ingredient.quantity) }),
        steps := (steps.filter validateCookingStep).enum.map (fun p =>
          { stepNumber := p.1 + 1,
            instruction := sanitizeInput (JSValue.ofOption p.2.instruction) }),
        cookingTime := data.cookingTime,
        category := data.category,
        difficulty := data.difficulty } := by
    simp only [cleanRecipeData, hi, hs]
  refine ⟨_, hout, rfl, ?_, ?_, ?_, ?_, ?_⟩
  · exact map_instruction_enum (fun st => sanitizeInput (JSValue.ofOption st.instruction))
      (steps.filter validateCookingStep)
  · simp only [List.length_map, List.enum_length]
    exact map_stepNumber_enum (fun st => sanitizeInput (JSValue.ofOption st.instruction))
      (steps.filter validateCookingStep)
  · simp only [List.length_map, List.enum_length]
  · intro i name quantity hv hn hq n1 n2 n3 q1 q2 q3
    simp only [validateIngredient, hn, hq, Bool.and_eq_true, decide_eq_true_eq,
      trimmedLength] at hv
    obtain ⟨⟨⟨_, hnl⟩, _⟩, hql⟩ := hv
    simp only [hn, hq, JSValue.ofOption, sanitizeInput_plain name n1 n2 n3,
      sanitizeInput_plain quantity q1 q2 q3, Ingredient.toForm, validateIngredient,
      trimmedLength, trim_trim, Bool.and_eq_true, decide_eq_true_eq]
    have e1 : truthy (some (trim name)) = true :=
      (truthy_iff _).mpr ⟨_, rfl, List.ne_nil_of_length_pos hnl⟩
    have e2 : truthy (some (trim quantity)) = true :=
      (truthy_iff _).mpr ⟨_, rfl, List.ne_nil_of_length_pos hql⟩
    exact ⟨⟨⟨e1, hnl⟩, e2⟩, hql⟩
  · intro st ins n hv hins i1 i2 i3
    simp only [validateCookingStep, hins, Bool.and_eq_true, decide_eq_true_eq,
      trimmedLength] at hv
    simp only [hins, JSValue.ofOption, sanitizeInput_plain ins i1 i2 i3, Step.toForm,
      validateCookingStep, trimmedLength, trim_trim, Bool.and_eq_true, decide_eq_true_eq]
    have e1 : truthy (some (trim ins)) = true :=
      (truthy_iff _).mpr ⟨_, rfl, List.ne_nil_of_length_pos (by omega)⟩
    exact ⟨e1, hv.2⟩

/-- Instance of `cleanRecipeData_spec`: of a blank and a valid ingredient, and of a
short and a valid step, the valid ones are kept, sanitized, the step with
number 1. -/
theorem cleanRecipeData_spec_witness :
    ∃ out, cleanRecipeData ⟨some "Pie".toList, some "A very good pie".toList, some 30,
        some "Dessert".toList, some "Easy".toList,
        some [⟨some " ".toList, some "1".toList⟩, ⟨some " Flour ".toList, some "500g".toList⟩],
        some [⟨some 1, some "Bake".toList⟩, ⟨some 2, some "Stir everything well".toList⟩]⟩ =
        some out ∧
      out.ingredients = [⟨"Flour".toList, "500g".toList⟩] ∧
      out.steps.map (fun st => st.instruction) = ["Stir everything well".toList] ∧
      out.steps.map (fun st => st.stepNumber) =
        (List.range out.steps.length).map (fun n => n + 1) ∧
      out.steps.length = 1 :=
  match cleanRecipeData_spec ⟨some "Pie".toList, some "A very good pie".toList, some 30,
      some "Dessert".toList, some "Easy".toList,
      some [⟨some " ".toList, some "1".toList⟩, ⟨some " Flour ".toList, some "500g".toList⟩],
      some [⟨some 1, some "Bake".toList⟩, ⟨some 2, some "Stir everything well".toList⟩]⟩
      [⟨some " ".toList, some "1".toList⟩, ⟨some " Flour ".toList, some "500g".toList⟩]
      [⟨some 1, some "Bake".toList⟩, ⟨some 2, some "Stir everything well".toList⟩] rfl rfl with
  | ⟨out, h, hing, hins, hnum, hlen, _⟩ =>
    ⟨out, h, hing.trans (by decide), hins.trans (by decide), hnum, hlen.trans (by decide)⟩

/-! ## `likeRecipe` -/

theorem indexOf_ge (l : List Str) (x : Str) : -1 ≤ indexOf l x := by
  induction l with
  | nil => simp [indexOf]
  | cons y ys ih =>
    simp only [indexOf]
    split_ifs <;> omega

theorem indexOf_eq_neg_one_iff (l : List Str) (x : Str) : indexOf l x = -1 ↔ x ∉ l := by
  induction l with
  | nil => simp [indexOf]
  | cons y ys ih =>
    have hge := indexOf_ge ys x
    simp only [indexOf, List.mem_cons, not_or]
    by_cases hy : y = x
    · rw [if_pos hy]
      constructor
      · intro h; omega
      · intro h; exact absurd hy.symm h.1
    · rw [if_neg hy]
      by_cases hi : indexOf ys x = -1
      · rw [if_pos hi]
        exact ⟨fun _ => ⟨fun e => hy e.symm, ih.mp hi⟩, fun _ => rfl⟩
      · rw [if_neg hi]
        constructor
        · intro h; omega
        · intro h; exact absurd (ih.mpr h.2) hi

theorem eraseIdx_indexOf (l : List Str) (x : Str) (h : x ∈ l) :
    l.eraseIdx (indexOf l x).toNat = l.erase x := by
  induction l with
  | nil => simp at h
  | cons y ys ih =>
    by_cases hy : y = x
    · simp [indexOf, hy]
    · have hx : x ∈ ys := by
        rcases List.mem_cons.mp h with e | e
        · exact absurd e.symm hy
        · exact e
      have hi : ¬ indexOf ys x = -1 := fun e => (indexOf_eq_neg_one_iff ys x).mp e hx
      have hge := indexOf_ge ys x
      have hn : (indexOf ys x + 1).toNat = (indexOf ys x).toNat + 1 := by omega
      simp only [indexOf, if_neg hy, if_neg hi, hn, List.eraseIdx_cons_succ, ih hx]
      rw [List.erase_cons_tail]
      simpa using hy

theorem filter_ne_erase (l : List Str) (x : Str) :
    (l.erase x).filter (fun u => decide (u ≠ x)) = l.filter (fun u => decide (u ≠ x)) := by
  induction l with
  | nil => rfl
  | cons y ys ih =>
    by_cases hy : y = x
    · simp [hy]
    · rw [List.erase_cons_tail (by simpa using hy)]
      simp only [List.filter_cons, ih]

/-- C27: for an existing recipe and a user, `likeRecipe` toggles the
membership of the user in `likes`.  When the user is not in the list it is
appended, and the response has `liked = true` and `likesCount` the previous
count plus 1; when the user is in the list its first occurrence is removed, and
the response has `liked = false` and `likesCount` the previous count minus 1.
In both cases the likes of all other users are kept in their order, the
document saved differs from the one found only in `likes`, and the response
counts the likes of the document saved. -/
theorem likeRecipe_toggle (recipe : Recipe) (userId : Str) :
    (userId ∉ recipe.likes →
      likeRecipe (some recipe) userId =
        (some { recipe with likes := recipe.likes ++ [userId] },
          .ok "Recipe like status updated" true (recipe.likes.length + 1))) ∧
    (userId ∈ recipe.likes →
      likeRecipe (some recipe) userId =
        (some { recipe with likes := recipe.likes.erase userId },
          .ok "Recipe like status updated" false (recipe.likes.length - 1)) ∧
      (recipe.likes.erase userId).length + 1 = recipe.likes.length ∧
      (recipe.likes.erase userId).count userId + 1 = recipe.likes.count userId) ∧
    (∃ saved liked, likeRecipe (some recipe) userId =
        (some saved, .ok "Recipe like status updated" liked saved.likes.length) ∧
      saved = { recipe with likes := saved.likes } ∧
      (liked = true ↔ userId ∉ recipe.likes) ∧
      saved.likes.filter (fun u => decide (u ≠ userId)) =
        recipe.likes.filter (fun u => decide (u ≠ userId))) := by
  have hnot : userId ∉ recipe.likes →
      likeRecipe (some recipe) userId =
        (some { recipe with likes := recipe.likes ++ [userId] },
          .ok "Recipe like status updated" true (recipe.likes.length + 1)) := by
    intro h
    have hi := (indexOf_eq_neg_one_iff recipe.likes userId).mpr h
    simp [likeRecipe, hi]
  have hmem : userId ∈ recipe.likes →
      likeRecipe (some recipe) userId =
        (some { recipe with likes := recipe.likes.erase userId },
          .ok "Recipe like status updated" false (recipe.likes.length - 1)) := by
    intro h
    have hi : ¬ indexOf recipe.likes userId = -1 :=
      fun e => (indexOf_eq_neg_one_iff recipe.likes userId).mp e h
    have hge := indexOf_ge recipe.likes userId
    have hgt : indexOf recipe.likes userId > -1 := by omega
    simp only [likeRecipe, if_pos hgt, eraseIdx_indexOf recipe.likes userId h,
      List.length_erase_of_mem h]
    simp [hi]
  refine ⟨hnot, fun h => ⟨hmem h, ?_, ?_⟩, ?_⟩
  · rw [List.length_erase_of_mem h]
    have := List.length_pos_of_mem h
    omega
  · rw [List.count_erase_self]
    have := List.count_pos_iff.mpr h
    omega
  · by_cases h : userId ∈ recipe.likes
    · refine ⟨{ recipe with likes := recipe.likes.erase userId }, false, ?_, rfl, ?_, ?_⟩
      · rw [hmem h, List.length_erase_of_mem h]
      · simp [h]
      · exact filter_ne_erase recipe.likes userId
    · refine ⟨{ recipe with likes := recipe.likes ++ [userId] }, true, ?_, rfl, ?_, ?_⟩
      · rw [hnot h, List.length_append]; rfl
      · simp [h]
      · simp [List.filter_append]

/-- Witness of C27: user `u2` likes a recipe liked by `u1` and `u3`, and then
takes the like back. -/
theorem likeRecipe_toggle_witness :
    ("u2".toList ∉ ["u1".toList, "u3".toList] ∧
      "u2".toList ∈ ["u1".toList, "u3".toList, "u2".toList]) ∧
    likeRecipe (some { candidateA with likes := ["u1".toList, "u3".toList] }) "u2".toList =
      (some { candidateA with likes := ["u1".toList, "u3".toList, "u2".toList] },
        .ok "Recipe like status updated" true 3) ∧
    likeRecipe (some { candidateA with likes := ["u1".toList, "u3".toList, "u2".toList] })
        "u2".toList =
      (some { candidateA with likes := ["u1".toList, "u3".toList] },
        .ok "Recipe like status updated" false 2) :=
  ⟨⟨by decide, by decide⟩,
    (likeRecipe_toggle { candidateA with likes := ["u1".toList, "u3".toList] } "u2".toList).1
      (by decide),
    ((likeRecipe_toggle { candidateA with likes := ["u1".toList, "u3".toList, "u2".toList] }
      "u2".toList).2.1 (by decide)).1⟩

end CookMate
